import Mathlib

/-!
# Verification of the OpenMP/OpenACC directive resolution subsystem

This development gives a shallow embedding of the directive-clause
validation code of `gcc/fortran/openmp.c` and of the OpenACC kernels
decomposition pass of `gcc/omp-oacc-kernels.c`, and proves properties of
the embedded algorithms.

Conventions:
* symbols (`gfc_symbol *`) are identified by natural numbers;
* the per-symbol `mark` bit used by `resolve_omp_clauses` is modelled as a
  function `Nat → Bool`;
* singly linked namelists are modelled as Lean lists in the same order;
* each `gfc_error` call site is modelled by appending a tag (or the symbol
  named by the message) to an error list.
-/

set_option maxHeartbeats 1000000
set_option maxRecDepth 8000

/-- The list-class enumeration (`OMP_LIST_*`).  The constructor order is the
enumeration order of the underlying C `enum` (the enumeration itself is
declared in a header outside the supplied sources; its member set and the
facts `OMP_LIST_LASTPRIVATE = OMP_LIST_FIRSTPRIVATE + 1` and
`OMP_LIST_REDUCTION_FIRST = OMP_LIST_PLUS`, …, `OMP_LIST_REDUCTION_LAST =
OMP_LIST_IEOR` are visible in `openmp.c` itself). -/
inductive OMPList where
  | priv
  | firstprivate
  | lastprivate
  | copyprivate
  | shared
  | copyin
  | uniform
  | aligned
  | linear
  | depend_in
  | depend_out
  | plus
  | mult
  | sub
  | land
  | lor
  | eqv
  | neqv
  | maxr
  | minr
  | iand
  | ior
  | ieor
  deriving DecidableEq, Repr, Fintype

/-- The `for (list = 0; list < OMP_LIST_NUM; list++)` iteration order. -/
def ompListOrder : List OMPList :=
  [.priv, .firstprivate, .lastprivate, .copyprivate, .shared, .copyin,
   .uniform, .aligned, .linear, .depend_in, .depend_out,
   .plus, .mult, .sub, .land, .lor, .eqv, .neqv, .maxr, .minr,
   .iand, .ior, .ieor]

/-- `list >= OMP_LIST_REDUCTION_FIRST && list <= OMP_LIST_REDUCTION_LAST`. -/
def isReductionList (l : OMPList) : Bool :=
  match l with
  | .plus | .mult | .sub | .land | .lor | .eqv | .neqv
  | .maxr | .minr | .iand | .ior | .ieor => true
  | _ => false

/-- The classes skipped by the cross-class uniqueness loop of
`resolve_omp_clauses` (openmp.c:1226-1231). -/
def multiExempt (l : OMPList) : Bool :=
  match l with
  | .firstprivate | .lastprivate | .aligned | .depend_in | .depend_out => true
  | _ => false

/-! ## The "present on multiple clauses" check (openmp.c:1179-1281)

The check is a sequence of loops over the clause lists, each loop performing
one of three per-entry actions on the symbol's `mark` bit:

* clear the bit (`n->sym->mark = 0`);
* report the symbol if the bit is set, otherwise set the bit;
* report the symbol and clear the bit if the bit is set.

We record the whole sequence of per-entry actions as a script and run it
over a mark state. -/

/-- One per-entry action of the multiple-clauses check. -/
inductive MarkStep where
  | clear
  | markOrError
  | errorClear
  deriving DecidableEq, Repr

/-- The mark bits of all symbols plus the symbols named so far by a
"Symbol '%s' present on multiple clauses" error, in emission order. -/
structure MarkState where
  mark : Nat → Bool
  errs : List Nat

/-- Run one step on the symbol `s`. -/
def runStep (k : MarkStep) (st : MarkState) (s : Nat) : MarkState :=
  match k with
  | .clear => { st with mark := fun t => if t = s then false else st.mark t }
  | .markOrError =>
      if st.mark s then { st with errs := st.errs ++ [s] }
      else { st with mark := fun t => if t = s then true else st.mark t }
  | .errorClear =>
      if st.mark s then
        { mark := fun t => if t = s then false else st.mark t,
          errs := st.errs ++ [s] }
      else st

/-- Run a script of steps left to right. -/
def runScript (sc : List (MarkStep × Nat)) (st : MarkState) : MarkState :=
  match sc with
  | [] => st
  | (k, s) :: rest => runScript rest (runStep k st s)

/-- The per-entry action script of the multiple-clauses check of
`resolve_omp_clauses`, in source order:
1. openmp.c:1181-1184 — every entry of every list clears its symbol's mark
   (first statement of the "is a variable" loop body);
2. openmp.c:1226-1239 — every list except firstprivate, lastprivate,
   aligned, depend-in, depend-out: report if marked, else mark;
3. openmp.c:1242-1249 — firstprivate then lastprivate: report and clear if
   marked;
4. openmp.c:1251-1258 — firstprivate: report if marked, else mark;
5. openmp.c:1259-1260 — lastprivate: clear;
6. openmp.c:1262-1269 — lastprivate: report if marked, else mark;
7. openmp.c:1271-1272 — aligned: clear;
8. openmp.c:1274-1281 — aligned: report if marked, else mark. -/
def multiClauseScript (lists : OMPList → List Nat) : List (MarkStep × Nat) :=
  (ompListOrder.map (fun l => (lists l).map (fun s => (MarkStep.clear, s)))).flatten
  ++ ((ompListOrder.filter (fun l => !multiExempt l)).map
        (fun l => (lists l).map (fun s => (MarkStep.markOrError, s)))).flatten
  ++ (lists .firstprivate).map (fun s => (MarkStep.errorClear, s))
  ++ (lists .lastprivate).map (fun s => (MarkStep.errorClear, s))
  ++ (lists .firstprivate).map (fun s => (MarkStep.markOrError, s))
  ++ (lists .lastprivate).map (fun s => (MarkStep.clear, s))
  ++ (lists .lastprivate).map (fun s => (MarkStep.markOrError, s))
  ++ (lists .aligned).map (fun s => (MarkStep.clear, s))
  ++ (lists .aligned).map (fun s => (MarkStep.markOrError, s))

/-- The symbols named by "present on multiple clauses" errors when
`resolve_omp_clauses` checks the given clause lists, starting from an
arbitrary initial state `mark0` of the persistent `mark` bits. -/
def multiClauseErrors (lists : OMPList → List Nat) (mark0 : Nat → Bool) :
    List Nat :=
  (runScript (multiClauseScript lists) { mark := mark0, errs := [] }).errs

/-! ### Non-interference lemmas

Each step reads and writes the mark bit of its own symbol only, and reports
its own symbol only, so the errors naming a symbol `s` depend only on the
steps whose symbol is `s`. -/

theorem runStep_mark_other (k : MarkStep) (st : MarkState) (s t : Nat)
    (h : t ≠ s) : (runStep k st s).mark t = st.mark t := by
  cases k with
  | clear => simp [runStep, h]
  | markOrError => by_cases hm : st.mark s <;> simp [runStep, hm, h]
  | errorClear => by_cases hm : st.mark s <;> simp [runStep, hm, h]

theorem runStep_errs_sub (k : MarkStep) (st : MarkState) (s : Nat) :
    ∃ add, (runStep k st s).errs = st.errs ++ add ∧ ∀ x ∈ add, x = s := by
  cases k with
  | clear => exact ⟨[], by simp [runStep]⟩
  | markOrError =>
      by_cases h : st.mark s
      · exact ⟨[s], by simp [runStep, h]⟩
      · exact ⟨[], by simp [runStep, h]⟩
  | errorClear =>
      by_cases h : st.mark s
      · exact ⟨[s], by simp [runStep, h]⟩
      · exact ⟨[], by simp [runStep, h]⟩

theorem runScript_errs_append (sc : List (MarkStep × Nat)) :
    ∀ (m : Nat → Bool) (e : List Nat),
      (runScript sc { mark := m, errs := e }).errs
        = e ++ (runScript sc { mark := m, errs := [] }).errs
      ∧ (runScript sc { mark := m, errs := e }).mark
        = (runScript sc { mark := m, errs := [] }).mark := by
  induction sc with
  | nil => intro m e; simp [runScript]
  | cons p rest ih =>
      intro m e
      obtain ⟨k, s⟩ := p
      cases k with
      | clear =>
          simpa [runScript, runStep] using ih _ e
      | markOrError =>
          by_cases h : m s
          · simp only [runScript, runStep, h, if_true, List.nil_append]
            obtain ⟨h1, h2⟩ := ih m (e ++ [s])
            obtain ⟨h3, h4⟩ := ih m [s]
            constructor
            · rw [h1, h3, List.append_assoc]
            · rw [h2, h4]
          · simpa [runScript, runStep, h] using ih _ e
      | errorClear =>
          by_cases h : m s
          · simp only [runScript, runStep, h, if_true, List.nil_append]
            obtain ⟨h1, h2⟩ := ih _ (e ++ [s])
            obtain ⟨h3, h4⟩ := ih _ [s]
            constructor
            · rw [h1, h3, List.append_assoc]
            · rw [h2, h4]
          · simpa [runScript, runStep, h] using ih _ e

/-- Runs of a script all of whose steps touch `s` agree when the initial
mark bits agree at `s`. -/
theorem runScript_congr_at (sc : List (MarkStep × Nat)) (s : Nat)
    (hsc : ∀ p ∈ sc, p.2 = s) :
    ∀ (m1 m2 : Nat → Bool), m1 s = m2 s →
      (runScript sc { mark := m1, errs := [] }).errs
        = (runScript sc { mark := m2, errs := [] }).errs := by
  induction sc with
  | nil => intro m1 m2 _; simp [runScript]
  | cons p rest ih =>
      intro m1 m2 hm
      obtain ⟨k, t⟩ := p
      have ht : t = s := hsc (k, t) (List.mem_cons_self _ _)
      subst ht
      have hrest : ∀ p ∈ rest, p.2 = t := fun p hp => hsc p (List.mem_cons_of_mem _ hp)
      cases k with
      | clear =>
          simp only [runScript, runStep]
          exact ih hrest _ _ (by simp)
      | markOrError =>
          by_cases h : m1 t
          · simp only [runScript, runStep, h, hm ▸ h, if_true, List.nil_append]
            rw [(runScript_errs_append rest m1 [t]).1,
                (runScript_errs_append rest m2 [t]).1]
            rw [ih hrest m1 m2 hm]
          · have h2 : m2 t = false := by rw [← hm]; simpa using h
            simp only [runScript, runStep, h, h2, if_false, Bool.false_eq_true]
            exact ih hrest _ _ (by simp)
      | errorClear =>
          by_cases h : m1 t
          · have h2 : m2 t = true := by rw [← hm]; simpa using h
            simp only [runScript, runStep, h, h2, if_true, List.nil_append]
            rw [(runScript_errs_append rest
                  (fun x => if x = t then false else m1 x) [t]).1,
                (runScript_errs_append rest
                  (fun x => if x = t then false else m2 x) [t]).1]
            rw [ih hrest (fun x => if x = t then false else m1 x)
                  (fun x => if x = t then false else m2 x) (by simp)]
          · have h2 : m2 t = false := by rw [← hm]; simpa using h
            simp only [runScript, runStep, h, h2, if_false, Bool.false_eq_true]
            exact ih hrest _ _ hm

/-- The count of errors naming `s` equals the count produced by the
subscript of steps touching `s` alone. -/
theorem runScript_count_filter (sc : List (MarkStep × Nat)) (s : Nat) :
    ∀ (m : Nat → Bool),
      ((runScript sc { mark := m, errs := [] }).errs.count s
        = (runScript (sc.filter (fun p => p.2 = s))
             { mark := m, errs := [] }).errs.count s)
      ∧ (runScript sc { mark := m, errs := [] }).mark s
        = (runScript (sc.filter (fun p => p.2 = s))
             { mark := m, errs := [] }).mark s := by
  induction sc with
  | nil => intro m; simp [runScript]
  | cons p rest ih =>
      intro m
      obtain ⟨k, t⟩ := p
      by_cases ht : t = s
      · subst ht
        have hfilter : ((k, t) :: rest).filter (fun p => p.2 = t)
            = (k, t) :: rest.filter (fun p => p.2 = t) := by
          simp [List.filter]
        rw [hfilter]
        obtain ⟨add, hadd, hall⟩ := runStep_errs_sub k { mark := m, errs := [] } t
        simp only [runScript]
        have hmark : (runStep k { mark := m, errs := [] } t).mark
            = (runStep k { mark := m, errs := [] } t).mark := rfl
        -- both sides run the same first step from states with equal marks
        -- and errs = add resp. add; rewrite errs to [] + add
        set st1 := runStep k { mark := m, errs := [] } t with hst1
        have hrepr : st1 = { mark := st1.mark, errs := add } := by
          have he : st1.errs = add := by simpa using hadd
          calc st1 = ⟨st1.mark, st1.errs⟩ := rfl
            _ = ⟨st1.mark, add⟩ := by rw [he]
        rw [hrepr]
        obtain ⟨e1, e2⟩ := runScript_errs_append rest st1.mark add
        obtain ⟨f1, f2⟩ := runScript_errs_append
          (rest.filter (fun p => p.2 = t)) st1.mark add
        rw [e1, f1]
        simp only [List.count_append]
        obtain ⟨c1, c2⟩ := ih st1.mark
        exact ⟨by rw [c1], by rw [e2, f2, c2]⟩
      · have hfilter : ((k, t) :: rest).filter (fun p => p.2 = s)
            = rest.filter (fun p => p.2 = s) := by
          simp [List.filter, ht]
        rw [hfilter]
        simp only [runScript]
        obtain ⟨add, hadd, hall⟩ := runStep_errs_sub k { mark := m, errs := [] } t
        set st1 := runStep k { mark := m, errs := [] } t with hst1
        have hms : st1.mark s = m s := runStep_mark_other k _ t s (Ne.symm ht)
        have hrepr : st1 = { mark := st1.mark, errs := add } := by
          have he : st1.errs = add := by simpa using hadd
          calc st1 = ⟨st1.mark, st1.errs⟩ := rfl
            _ = ⟨st1.mark, add⟩ := by rw [he]
        rw [hrepr]
        obtain ⟨e1, e2⟩ := runScript_errs_append rest st1.mark add
        rw [e1]
        simp only [List.count_append]
        have hcnt : add.count s = 0 := by
          rw [List.count_eq_zero]
          intro hmem
          exact ht (hall s hmem).symm
        rw [hcnt]
        obtain ⟨c1, c2⟩ := ih st1.mark
        have hcongr := runScript_congr_at (rest.filter (fun p => p.2 = s)) s
          (by intro p hp; exact of_decide_eq_true (List.mem_filter.mp hp).2)
          st1.mark m hms
        obtain ⟨c1', c2'⟩ := ih m
        constructor
        · rw [c1]
          rw [runScript_congr_at (rest.filter (fun p => p.2 = s)) s
              (by intro p hp; exact of_decide_eq_true (List.mem_filter.mp hp).2)
              st1.mark m hms]
          simp
        · rw [e2, c2]
          -- marks at s also agree between the two filtered runs
          have : ∀ (sc' : List (MarkStep × Nat)), (∀ p ∈ sc', p.2 = s) →
              ∀ m1 m2 : Nat → Bool, m1 s = m2 s →
              (runScript sc' { mark := m1, errs := [] }).mark s
                = (runScript sc' { mark := m2, errs := [] }).mark s := by
            intro sc'
            induction sc' with
            | nil => intro _ m1 m2 hm; simpa [runScript] using hm
            | cons q qrest qih =>
                intro hq m1 m2 hm
                obtain ⟨k', t'⟩ := q
                have ht' : t' = s := hq (k', t') (List.mem_cons_self _ _)
                subst ht'
                have hqrest : ∀ p ∈ qrest, p.2 = t' :=
                  fun p hp => hq p (List.mem_cons_of_mem _ hp)
                cases k' with
                | clear =>
                    simp only [runScript, runStep]
                    refine qih hqrest _ _ ?_
                    simp
                | markOrError =>
                    by_cases h : m1 t'
                    · have h2 : m2 t' = true := by rw [← hm]; simpa using h
                      simp only [runScript, runStep, h, h2, if_true,
                        List.nil_append]
                      obtain ⟨_, g2⟩ := runScript_errs_append qrest m1 [t']
                      obtain ⟨_, g4⟩ := runScript_errs_append qrest m2 [t']
                      rw [congrFun g2 t', congrFun g4 t']
                      exact qih hqrest _ _ hm
                    · have h2 : m2 t' = false := by rw [← hm]; simpa using h
                      simp only [runScript, runStep, h, h2, if_false,
                        Bool.false_eq_true]
                      refine qih hqrest _ _ ?_
                      simp
                | errorClear =>
                    by_cases h : m1 t'
                    · have h2 : m2 t' = true := by rw [← hm]; simpa using h
                      simp only [runScript, runStep, h, h2, if_true,
                        List.nil_append]
                      obtain ⟨_, g2⟩ := runScript_errs_append qrest _ [t']
                      obtain ⟨_, g4⟩ := runScript_errs_append qrest _ [t']
                      rw [congrFun g2 t', congrFun g4 t']
                      refine qih hqrest _ _ ?_
                      simp
                    · have h2 : m2 t' = false := by rw [← hm]; simpa using h
                      simp only [runScript, runStep, h, h2, if_false,
                        Bool.false_eq_true]
                      exact qih hqrest _ _ hm
          exact this _ (by intro p hp; exact of_decide_eq_true (List.mem_filter.mp hp).2)
            st1.mark m hms

/-! ### Computing the steps that touch one symbol -/

theorem filter_map_pair (k : MarkStep) (s : Nat) (xs : List Nat) :
    (xs.map (fun t => (k, t))).filter (fun p => p.2 = s)
      = List.replicate (xs.count s) (k, s) := by
  induction xs with
  | nil => simp
  | cons x rest ih =>
      by_cases h : x = s
      · subst h
        simp [List.filter_cons, ih, List.count_cons, List.replicate_succ]
      · simp [List.filter_cons, h, ih, List.count_cons]

theorem filter_flatten_eq {α : Type} (p : α → Bool) (ls : List (List α)) :
    ls.flatten.filter p = (ls.map (List.filter p)).flatten := by
  induction ls with
  | nil => simp
  | cons l rest ih => simp [List.filter_append, ih]

theorem flatten_map_replicate {α β : Type} (a : α) (g : β → Nat)
    (ls : List β) :
    (ls.map (fun l => List.replicate (g l) a)).flatten
      = List.replicate ((ls.map g).sum) a := by
  induction ls with
  | nil => simp
  | cons l rest ih =>
      rw [List.map_cons, List.flatten_cons, ih, List.map_cons, List.sum_cons,
        List.replicate_add]

theorem sum_map_eq_zero {β : Type} (g : β → Nat) (L : List β)
    (h : ∀ l ∈ L, g l = 0) : (L.map g).sum = 0 := by
  induction L with
  | nil => simp
  | cons x rest ih =>
      simp only [List.map_cons, List.sum_cons]
      rw [h x (List.mem_cons_self _ _), ih (fun l hl => h l (List.mem_cons_of_mem _ hl))]

theorem sum_map_single_support {β : Type} [DecidableEq β] (g : β → Nat)
    (B : β) (L : List β) (hnd : L.Nodup) (hB : B ∈ L)
    (h0 : ∀ l ∈ L, l ≠ B → g l = 0) : (L.map g).sum = g B := by
  induction L with
  | nil => cases hB
  | cons x rest ih =>
      simp only [List.map_cons, List.sum_cons]
      by_cases hx : x = B
      · subst hx
        have : ∀ l ∈ rest, g l = 0 := by
          intro l hl
          have hne : l ≠ x := by
            intro he; subst he
            exact (List.nodup_cons.mp hnd).1 hl
          exact h0 l (List.mem_cons_of_mem _ hl) hne
        rw [sum_map_eq_zero g rest this]
        simp
      · have hBr : B ∈ rest := by
          rcases List.mem_cons.mp hB with h | h
          · exact absurd h.symm hx
          · exact h
        rw [h0 x (List.mem_cons_self _ _) hx,
            ih (List.nodup_cons.mp hnd).2 hBr
              (fun l hl => h0 l (List.mem_cons_of_mem _ hl))]
        simp

theorem sum_map_two_support {β : Type} [DecidableEq β] (g : β → Nat)
    (A B : β) (hAB : A ≠ B) (L : List β) (hnd : L.Nodup)
    (hA : A ∈ L) (hB : B ∈ L)
    (h0 : ∀ l ∈ L, l ≠ A → l ≠ B → g l = 0) : (L.map g).sum = g A + g B := by
  induction L with
  | nil => cases hA
  | cons x rest ih =>
      simp only [List.map_cons, List.sum_cons]
      by_cases hxA : x = A
      · subst hxA
        have hBr : B ∈ rest := by
          rcases List.mem_cons.mp hB with h | h
          · exact absurd h.symm hAB
          · exact h
        rw [sum_map_single_support g B rest (List.nodup_cons.mp hnd).2 hBr ?_]
        intro l hl hlB
        have hlA : l ≠ x := by
          intro he; subst he
          exact (List.nodup_cons.mp hnd).1 hl
        exact h0 l (List.mem_cons_of_mem _ hl) hlA hlB
      · by_cases hxB : x = B
        · subst hxB
          have hAr : A ∈ rest := by
            rcases List.mem_cons.mp hA with h | h
            · exact absurd h.symm hxA
            · exact h
          rw [sum_map_single_support g A rest (List.nodup_cons.mp hnd).2 hAr ?_]
          · omega
          · intro l hl hlA
            have hlB : l ≠ x := by
              intro he; subst he
              exact (List.nodup_cons.mp hnd).1 hl
            exact h0 l (List.mem_cons_of_mem _ hl) hlA hlB
        · have hAr : A ∈ rest := by
            rcases List.mem_cons.mp hA with h | h
            · exact absurd h.symm hxA
            · exact h
          have hBr : B ∈ rest := by
            rcases List.mem_cons.mp hB with h | h
            · exact absurd h.symm hxB
            · exact h
          rw [h0 x (List.mem_cons_self _ _) hxA hxB,
              ih (List.nodup_cons.mp hnd).2 hAr hBr
                (fun l hl => h0 l (List.mem_cons_of_mem _ hl))]
          simp

theorem mem_ompListOrder (l : OMPList) : l ∈ ompListOrder := by
  cases l <;> simp [ompListOrder]

theorem nodup_ompListOrder : ompListOrder.Nodup := by decide

/-- Shape of the multiple-clauses script restricted to a single symbol. -/
theorem multiClauseScript_filter (lists : OMPList → List Nat) (s : Nat) :
    (multiClauseScript lists).filter (fun p => p.2 = s)
      = List.replicate ((ompListOrder.map (fun l => (lists l).count s)).sum)
          (MarkStep.clear, s)
        ++ List.replicate
            (((ompListOrder.filter (fun l => !multiExempt l)).map
                (fun l => (lists l).count s)).sum)
            (MarkStep.markOrError, s)
        ++ List.replicate ((lists .firstprivate).count s) (MarkStep.errorClear, s)
        ++ List.replicate ((lists .lastprivate).count s) (MarkStep.errorClear, s)
        ++ List.replicate ((lists .firstprivate).count s) (MarkStep.markOrError, s)
        ++ List.replicate ((lists .lastprivate).count s) (MarkStep.clear, s)
        ++ List.replicate ((lists .lastprivate).count s) (MarkStep.markOrError, s)
        ++ List.replicate ((lists .aligned).count s) (MarkStep.clear, s)
        ++ List.replicate ((lists .aligned).count s) (MarkStep.markOrError, s) := by
  unfold multiClauseScript
  simp only [List.filter_append, filter_flatten_eq, List.map_map,
    Function.comp_def, filter_map_pair, flatten_map_replicate]

/-- Helper: symbols on two distinct non-exempt classes (once each, nowhere
else) are reported exactly once by the multiple-clauses check. -/
theorem multiClause_two_classes (lists : OMPList → List Nat) (s : Nat)
    (A B : OMPList) (mark0 : Nat → Bool) (hAB : A ≠ B)
    (hA : multiExempt A = false) (hB : multiExempt B = false)
    (hcA : (lists A).count s = 1) (hcB : (lists B).count s = 1)
    (h0 : ∀ l, l ≠ A → l ≠ B → (lists l).count s = 0) :
    (multiClauseErrors lists mark0).count s = 1 := by
  unfold multiClauseErrors
  rw [(runScript_count_filter (multiClauseScript lists) s mark0).1,
      multiClauseScript_filter]
  have hexempt0 : ∀ l, multiExempt l = true → (lists l).count s = 0 := by
    intro l hl
    refine h0 l ?_ ?_
    · rintro rfl; rw [hA] at hl; cases hl
    · rintro rfl; rw [hB] at hl; cases hl
  have hsum0 : (ompListOrder.map (fun l => (lists l).count s)).sum = 2 := by
    rw [sum_map_two_support _ A B hAB ompListOrder nodup_ompListOrder
        (mem_ompListOrder A) (mem_ompListOrder B)
        (fun l _ h1 h2 => h0 l h1 h2), hcA, hcB]
  have hsum1 : ((ompListOrder.filter (fun l => !multiExempt l)).map
      (fun l => (lists l).count s)).sum = 2 := by
    rw [sum_map_two_support _ A B hAB _
        (List.Nodup.filter _ nodup_ompListOrder)
        (List.mem_filter.mpr ⟨mem_ompListOrder A, by simp [hA]⟩)
        (List.mem_filter.mpr ⟨mem_ompListOrder B, by simp [hB]⟩)
        (fun l _ h1 h2 => h0 l h1 h2), hcA, hcB]
  rw [hsum0, hsum1, hexempt0 .firstprivate rfl, hexempt0 .lastprivate rfl,
      hexempt0 .aligned rfl]
  simp [runScript, runStep, List.replicate_succ]

/-- Helper: a symbol on firstprivate and lastprivate only (once each) is
never reported by the multiple-clauses check. -/
theorem multiClause_fp_lp (lists : OMPList → List Nat) (s : Nat)
    (mark0 : Nat → Bool)
    (hcF : (lists .firstprivate).count s = 1)
    (hcL : (lists .lastprivate).count s = 1)
    (h0 : ∀ l, l ≠ OMPList.firstprivate → l ≠ OMPList.lastprivate →
      (lists l).count s = 0) :
    (multiClauseErrors lists mark0).count s = 0 := by
  unfold multiClauseErrors
  rw [(runScript_count_filter (multiClauseScript lists) s mark0).1,
      multiClauseScript_filter]
  have hsum0 : (ompListOrder.map (fun l => (lists l).count s)).sum = 2 := by
    rw [sum_map_two_support _ OMPList.firstprivate OMPList.lastprivate
        (by decide) ompListOrder nodup_ompListOrder
        (mem_ompListOrder _) (mem_ompListOrder _)
        (fun l _ h1 h2 => h0 l h1 h2), hcF, hcL]
  have hsum1 : ((ompListOrder.filter (fun l => !multiExempt l)).map
      (fun l => (lists l).count s)).sum = 0 := by
    refine sum_map_eq_zero _ _ ?_
    intro l hl
    have hne : multiExempt l = false := by
      simpa using (List.mem_filter.mp hl).2
    refine h0 l ?_ ?_
    · rintro rfl; cases hne
    · rintro rfl; cases hne
  have hal : (lists .aligned).count s = 0 := h0 _ (by decide) (by decide)
  rw [hsum0, hsum1, hcF, hcL, hal]
  simp [runScript, runStep, List.replicate_succ]

/-- C1: a symbol appearing (once each) on two list-classes, neither of
which is firstprivate, lastprivate, aligned, depend-in or depend-out, and
on no other class, is named by exactly one "present on multiple clauses"
error; a symbol appearing on firstprivate and lastprivate only is named by
no such error; a symbol appearing on private and shared only is named by
exactly one such error.  Holds for every initial state of the persistent
per-symbol mark bits. -/
theorem C1_clause_exclusivity :
    (∀ (lists : OMPList → List Nat) (s : Nat) (A B : OMPList)
       (mark0 : Nat → Bool), A ≠ B →
       multiExempt A = false → multiExempt B = false →
       (lists A).count s = 1 → (lists B).count s = 1 →
       (∀ l, l ≠ A → l ≠ B → (lists l).count s = 0) →
       (multiClauseErrors lists mark0).count s = 1)
    ∧ (∀ (lists : OMPList → List Nat) (s : Nat) (mark0 : Nat → Bool),
       (lists .firstprivate).count s = 1 →
       (lists .lastprivate).count s = 1 →
       (∀ l, l ≠ OMPList.firstprivate → l ≠ OMPList.lastprivate →
         (lists l).count s = 0) →
       (multiClauseErrors lists mark0).count s = 0)
    ∧ (∀ (lists : OMPList → List Nat) (s : Nat) (mark0 : Nat → Bool),
       (lists .priv).count s = 1 → (lists .shared).count s = 1 →
       (∀ l, l ≠ OMPList.priv → l ≠ OMPList.shared →
         (lists l).count s = 0) →
       (multiClauseErrors lists mark0).count s = 1) := by
  refine ⟨?_, ?_, ?_⟩
  · intro lists s A B mark0 hAB hA hB hcA hcB h0
    exact multiClause_two_classes lists s A B mark0 hAB hA hB hcA hcB h0
  · intro lists s mark0 hcF hcL h0
    exact multiClause_fp_lp lists s mark0 hcF hcL h0
  · intro lists s mark0 hcP hcS h0
    exact multiClause_two_classes lists s OMPList.priv OMPList.shared mark0
      (by decide) rfl rfl hcP hcS h0

/-- Clause lists with the symbol 5 on private and shared only. -/
def c1ExampleLists : OMPList → List Nat := fun l =>
  match l with
  | .priv => [5]
  | .shared => [5]
  | _ => []

/-- Witness for C1 at a concrete clause set: symbol 5 on private and
shared, reported exactly once. -/
theorem C1_clause_exclusivity_witness :
    ((c1ExampleLists .priv).count 5 = 1
      ∧ (c1ExampleLists .shared).count 5 = 1
      ∧ (∀ l, l ≠ OMPList.priv → l ≠ OMPList.shared →
          (c1ExampleLists l).count 5 = 0))
    ∧ (multiClauseErrors c1ExampleLists (fun _ => false)).count 5 = 1 :=
  ⟨⟨by decide, by decide, by decide⟩,
   C1_clause_exclusivity.2.2 c1ExampleLists 5 (fun _ => false)
     (by decide) (by decide) (by decide)⟩

/-! ## Typed clause constraints (openmp.c:1283-1521)

Per-class semantic checks of `resolve_omp_clauses`.  We embed the
`default:` branch of the per-class `switch` (openmp.c:1409-1519), the
branch every reduction list-class reaches (the explicit cases are
copyin, copyprivate, shared, aligned and the depend classes only). -/

/-- Basic-type tags of the external type system (`BT_*`), in enumeration
order.  The enumeration itself lives in a header outside the supplied
sources; the order is used only by `is_conversion`'s widening test. -/
inductive BT where
  | unknown
  | integer
  | real
  | complex
  | logical
  | character
  | derived
  | cls
  | procedure
  | hollerith
  | voidt
  | assumed
  deriving DecidableEq, Repr

/-- Enumeration index of a basic type. -/
def btIdx (b : BT) : Nat :=
  match b with
  | .unknown => 0
  | .integer => 1
  | .real => 2
  | .complex => 3
  | .logical => 4
  | .character => 5
  | .derived => 6
  | .cls => 7
  | .procedure => 8
  | .hollerith => 9
  | .voidt => 10
  | .assumed => 11

/-- Modelled from the spec: `gfc_numeric_ts` is declared outside the
supplied sources; per the spec (§4.2 rule 3) the arithmetic reduction
operators require a "numeric type", i.e. one of the arithmetic basic
types integer, real, complex. -/
def gfc_numeric_ts (b : BT) : Bool :=
  b = .integer || b = .real || b = .complex

/-- Type specification of a symbol as consulted by the validator:
`ts.type` plus the `ts.u.derived->attr.alloc_comp` flag. -/
structure VTs where
  bt : BT
  allocComp : Bool
  deriving DecidableEq, Repr

/-- The symbol-attribute queries made by the `default:` branch. -/
structure VSym where
  threadprivate : Bool
  crayPointee : Bool
  crayPointer : Bool
  pointer : Bool
  value : Bool
  inNamelist : Bool
  assumedSize : Bool
  ts : VTs
  deriving DecidableEq, Repr

/-- A (resolved) clause step/alignment expression as consulted by the
validator: resolution success, type, rank, constancy. -/
structure VExpr where
  resolvesOk : Bool
  bt : BT
  rank : Nat
  isConstant : Bool
  deriving DecidableEq, Repr

/-- Error tags of the `default:` branch, one per `gfc_error` call site
(in source order). -/
inductive VErr where
  | threadprivObj
  | crayPointeeObj
  | pointerRed
  | allocCompObj
  | crayPointerRed
  | assumedSizeArr
  | namelistVar
  | redNumeric
  | redLogical
  | redIntReal
  | redInt
  | linearInt
  | linearValue
  | linearStepScalar
  | linearStepConst
  deriving DecidableEq, Repr

/-- The `default:` branch of the per-class constraint switch, for one
namelist entry (openmp.c:1409-1519).  `codePresent` is `code != NULL`
(false when validating a `!$omp declare simd` interface). -/
def defaultListCheckEntry (list : OMPList) (codePresent : Bool)
    (sym : VSym) (expr : Option VExpr) : List VErr :=
  (if sym.threadprivate then [.threadprivObj] else [])
  ++ (if sym.crayPointee then [.crayPointeeObj] else [])
  ++ (if list ≠ OMPList.priv then
        (if sym.pointer && isReductionList list then [.pointerRed] else [])
        ++ (if !isReductionList list && sym.ts.bt = BT.derived
              && sym.ts.allocComp then [.allocCompObj] else [])
        ++ (if sym.crayPointer && isReductionList list
              then [.crayPointerRed] else [])
      else [])
  ++ (if sym.assumedSize then [.assumedSizeArr] else [])
  ++ (if sym.inNamelist && !isReductionList list then [.namelistVar] else [])
  ++ (match list with
      | .plus | .mult | .sub =>
          if !gfc_numeric_ts sym.ts.bt then [.redNumeric] else []
      | .land | .lor | .eqv | .neqv =>
          if sym.ts.bt ≠ BT.logical then [.redLogical] else []
      | .maxr | .minr =>
          if sym.ts.bt ≠ BT.integer && sym.ts.bt ≠ BT.real
            then [.redIntReal] else []
      | .iand | .ior | .ieor =>
          if sym.ts.bt ≠ BT.integer then [.redInt] else []
      | .linear =>
          if sym.ts.bt ≠ BT.integer then [.linearInt]
          else if !codePresent && !sym.value then [.linearValue]
          else match expr with
            | none => []
            | some e =>
                if !e.resolvesOk || e.bt ≠ BT.integer || e.rank ≠ 0
                  then [.linearStepScalar]
                else if !codePresent && !e.isConstant
                  then [.linearStepConst]
                else []
      | _ => [])

/-- The reduction type-mismatch error tags. -/
def isRedTypeErr (e : VErr) : Bool :=
  match e with
  | .redNumeric | .redLogical | .redIntReal | .redInt => true
  | _ => false

/-- The claim's requirement, stated from the spec's words: +, * and -
need a numeric type; .and., .or., .eqv., .neqv. need a logical type;
max and min need integer or real; iand, ior, ieor need integer. -/
def specReductionTypeViolation (list : OMPList) (b : BT) : Bool :=
  match list with
  | .plus | .mult | .sub => !(b = .integer || b = .real || b = .complex)
  | .land | .lor | .eqv | .neqv => b ≠ BT.logical
  | .maxr | .minr => !(b = .integer || b = .real)
  | .iand | .ior | .ieor => b ≠ BT.integer
  | _ => false

/-- A boolean-typed symbol with no other special attributes. -/
def boolVSym : VSym :=
  { threadprivate := false, crayPointee := false, crayPointer := false,
    pointer := false, value := false, inNamelist := false,
    assumedSize := false, ts := { bt := .logical, allocComp := false } }

/-- C2: for every symbol on a reduction list-class, the default-branch
check of the validator emits a reduction type error exactly when the
symbol's type violates the operator's requirement; in particular a
boolean symbol under reduction(+) gets exactly the numeric-type error and
a boolean symbol under reduction(.and.) gets no error at all. -/
theorem C2_reduction_type_check :
    (∀ (l : OMPList) (cp : Bool) (sym : VSym) (e : Option VExpr),
        isReductionList l = true →
        ((defaultListCheckEntry l cp sym e).any isRedTypeErr = true
          ↔ specReductionTypeViolation l sym.ts.bt = true))
    ∧ defaultListCheckEntry .plus true boolVSym none = [.redNumeric]
    ∧ defaultListCheckEntry .land true boolVSym none = [] := by
  refine ⟨?_, by rfl, by rfl⟩
  intro l cp sym e hl
  cases l <;> simp only [isReductionList] at hl <;>
    cases hb : sym.ts.bt <;>
      simp_all [defaultListCheckEntry, isRedTypeErr,
        specReductionTypeViolation, gfc_numeric_ts, isReductionList]

/-- Witness for C2 at a concrete reduction class and symbol: reduction(+)
on a boolean symbol is flagged as a type violation. -/
theorem C2_reduction_type_check_witness :
    isReductionList .plus = true
    ∧ ((defaultListCheckEntry .plus true boolVSym none).any isRedTypeErr = true
        ↔ specReductionTypeViolation .plus boolVSym.ts.bt = true) :=
  ⟨by decide, C2_reduction_type_check.1 .plus true boolVSym none (by decide)⟩

/-! ## Clause parsing: namelist construction (openmp.c:103-223, 519-592)

`gfc_match_omp_variable_list` appends one fresh entry per parsed symbol to
the tail of the given list-class list and reports the position of the
first appended entry (`headp`).  The aligned/linear/depend recognizers of
`gfc_match_omp_clauses` then post-process the appended sublist. -/

/-- Parse-side expressions: an integer constant literal (as built by
`gfc_get_constant_expr`/`mpz_set_si`) or some other expression. -/
inductive PExpr where
  | intConst (kind : Nat) (value : Int)
  | other (id : Nat)
  deriving DecidableEq, Repr

/-- `gfc_copy_expr` builds a structurally identical copy; on values the
copy is equal. -/
def gfc_copy_expr (e : PExpr) : PExpr := e

/-- `gfc_default_integer_kind` is a target constant declared outside the
supplied sources; its value is irrelevant here, we fix the usual 4. -/
def gfc_default_integer_kind : Nat := 4

/-- A namelist entry (`gfc_omp_namelist`): symbol reference and optional
owned expression. -/
structure OmpNamelist where
  sym : Nat
  expr : Option PExpr
  deriving DecidableEq, Repr

/-- The fresh entries built by `gfc_match_omp_variable_list` for a list of
parsed symbol references (expr starts NULL; appended at the list tail,
`headp` reporting the first appended entry). -/
def freshEntries (syms : List Nat) : List OmpNamelist :=
  syms.map (fun s => { sym := s, expr := none })

/-- The attachment loop of the aligned recognizer (openmp.c:539-543):
`for (n = *head; n; n = n->next) if (n->next && alignment) n->expr =
gfc_copy_expr (alignment); else n->expr = alignment;` -/
def alignedAttach (alignment : Option PExpr) :
    List OmpNamelist → List OmpNamelist
  | [] => []
  | [n] => [{ n with expr := alignment }]
  | n :: m :: rest =>
      (match alignment with
       | some a => { n with expr := some (gfc_copy_expr a) }
       | none => { n with expr := none })
      :: alignedAttach alignment (m :: rest)

/-- One successful `aligned( syms [: alignment] )` invocation appending to
the current contents of the aligned list-class (openmp.c:522-545). -/
def alignedInvocation (lst : List OmpNamelist) (syms : List Nat)
    (alignment : Option PExpr) : List OmpNamelist :=
  lst ++ alignedAttach alignment (freshEntries syms)

/-- One successful `linear( syms [: step] )` invocation appending to the
current contents of the linear list-class (openmp.c:549-574).  With no
trailing `: step`, a fresh integer constant 1 of default integer kind is
built; either way the expression is stored on `(*head)->expr`, i.e. on
the first entry appended by this invocation only. -/
def linearInvocation (lst : List OmpNamelist) (syms : List Nat)
    (step : Option PExpr) : List OmpNamelist :=
  let stepE : PExpr :=
    match step with
    | some e => e
    | none => PExpr.intConst gfc_default_integer_kind 1
  lst ++ (match freshEntries syms with
          | [] => []
          | n :: rest => { n with expr := some stepE } :: rest)

/-- The three `depend` clause keyword tags. -/
inductive DependKind where
  | din
  | dout
  | dinout
  deriving DecidableEq, Repr

/-- The list-class receiving each depend tag (openmp.c:575-592):
`depend ( in : ` appends to `OMP_LIST_DEPEND_IN`, while both
`depend ( out : ` and `depend ( inout : ` append to
`OMP_LIST_DEPEND_OUT`. -/
def dependListTarget (k : DependKind) : OMPList :=
  match k with
  | .din => .depend_in
  | .dout => .depend_out
  | .dinout => .depend_out

/-- One successful `depend` invocation: the parsed entries are appended to
the tag's target list-class. -/
def dependInvocation (c : OMPList → List OmpNamelist) (k : DependKind)
    (entries : List OmpNamelist) : OMPList → List OmpNamelist :=
  fun l => if l = dependListTarget k then c l ++ entries else c l

/-- Entries produced by `alignedAttach` with a present alignment all carry
that alignment expression. -/
theorem alignedAttach_all_some (a : PExpr) :
    ∀ es : List OmpNamelist, ∀ e ∈ alignedAttach (some a) es, e.expr = some a := by
  intro es
  induction es with
  | nil => intro e he; cases he
  | cons n rest ih =>
      intro e he
      cases rest with
      | nil =>
          simp only [alignedAttach, List.mem_singleton] at he
          subst he; rfl
      | cons m rest' =>
          simp only [alignedAttach, List.mem_cons] at he
          rcases he with he | he
          · subst he; rfl
          · exact ih e he

/-- C6 counterexample: a linear clause invocation with two variables and a
trailing step expression leaves the second appended entry with no expr. -/
theorem C6_counterexample :
    linearInvocation [] [1, 2] (some (PExpr.other 7))
      = [{ sym := 1, expr := some (PExpr.other 7) },
         { sym := 2, expr := none }] := rfl

/-- C6 (amended): for an aligned invocation with a trailing `: expression`
every appended entry carries that expression (a copy on all but the last
entry, the parsed expression itself on the last); for a linear invocation
with a trailing `: expression` only the first appended entry carries it
and the remaining appended entries are left without an expression. -/
theorem C6_trailing_expr_attachment :
    (∀ (lst : List OmpNamelist) (syms : List Nat) (a : PExpr),
        ∀ e ∈ (alignedInvocation lst syms (some a)).drop lst.length,
          e.expr = some a)
    ∧ (∀ (lst : List OmpNamelist) (s1 : Nat) (srest : List Nat) (st : PExpr),
        (linearInvocation lst (s1 :: srest) (some st)).drop lst.length
          = { sym := s1, expr := some st } :: freshEntries srest
        ∧ ∀ e ∈ freshEntries srest, e.expr = none) := by
  constructor
  · intro lst syms a e he
    rw [alignedInvocation, List.drop_left] at he
    exact alignedAttach_all_some a (freshEntries syms) e he
  · intro lst s1 srest st
    constructor
    · rw [linearInvocation]
      simp [freshEntries, List.drop_left]
    · intro e he
      simp only [freshEntries, List.mem_map] at he
      obtain ⟨s, _, hs⟩ := he
      rw [← hs]

/-- Witness for C6 (amended) at a concrete invocation. -/
theorem C6_trailing_expr_attachment_witness :
    ({ sym := 3, expr := some (PExpr.other 9) } : OmpNamelist)
      ∈ (alignedInvocation [] [3, 4] (some (PExpr.other 9))).drop 0
    ∧ ({ sym := 3, expr := some (PExpr.other 9) } : OmpNamelist).expr
      = some (PExpr.other 9) :=
  ⟨by decide,
   C6_trailing_expr_attachment.1 [] [3, 4] (PExpr.other 9)
     { sym := 3, expr := some (PExpr.other 9) } (by decide)⟩

/-- C8: depend(in:) entries go to the depend-in class; depend(out:) and
depend(inout:) invocations produce identical clause-set states, appending
to the depend-out class, so out and inout entries are indistinguishable
by list-class. -/
theorem C8_depend_routing :
    (∀ (c : OMPList → List OmpNamelist) (es : List OmpNamelist),
        dependInvocation c .din es .depend_in = c .depend_in ++ es)
    ∧ (∀ (c : OMPList → List OmpNamelist) (es : List OmpNamelist),
        dependInvocation c .dout es .depend_out = c .depend_out ++ es)
    ∧ (∀ (c : OMPList → List OmpNamelist) (es : List OmpNamelist),
        dependInvocation c .dout es = dependInvocation c .dinout es) := by
  refine ⟨?_, ?_, ?_⟩
  · intro c es; simp [dependInvocation, dependListTarget]
  · intro c es; simp [dependInvocation, dependListTarget]
  · intro c es
    funext l
    simp [dependInvocation, dependListTarget]

/-- C9: a linear invocation with no trailing `: expression` attaches a
freshly built integer constant 1 (of default integer kind) to the first
appended entry; the remaining appended entries receive no expression. -/
theorem C9_linear_default_step :
    ∀ (lst : List OmpNamelist) (s1 : Nat) (srest : List Nat),
      linearInvocation lst (s1 :: srest) none
        = lst ++
          ({ sym := s1,
             expr := some (PExpr.intConst gfc_default_integer_kind 1) }
            :: srest.map (fun s => { sym := s, expr := none })) := by
  intro lst s1 srest
  rfl

/-! ## The DO-iterator predetermination hook (openmp.c:2095-2132) -/

/-- One open directive context (`struct omp_context`): the directive's
code, the two pointer sets, and the private list of the directive's
clause set (`ctx.code->ext.omp_clauses->lists[OMP_LIST_PRIVATE]`,
symbols only). -/
structure OmpContext where
  codeId : Nat
  sharingClauses : List Nat
  privateIterators : List Nat
  privList : List Nat
  deriving DecidableEq, Repr

/-- The file-static resolution state of openmp.c: the open-context stack
(`omp_current_ctx`, innermost first), the chain of collapsed DO
statements starting at `omp_current_do_code` (each next element being
`c->block->next` of the previous), and `omp_current_do_collapse`. -/
structure OmpResolveState where
  ctxStack : List OmpContext
  doChain : List Nat
  doCollapse : Nat
  deriving DecidableEq, Repr

/-- `gfc_resolve_do_iterator` (openmp.c:2095-2132).  `threadprivate` is
the value of `sym->attr.threadprivate`.  The `while (i-- >= 1)` walk over
`omp_current_do_code` and its nested loops is modelled by membership of
`code` in the first `doCollapse` elements of the chain. -/
def gfc_resolve_do_iterator (codeId : Nat) (sym : Nat)
    (threadprivate : Bool) (st : OmpResolveState) : OmpResolveState :=
  if threadprivate then st
  else if (st.doChain.take st.doCollapse).contains codeId then st
  else
    match st.ctxStack with
    | [] => st
    | ctx :: rest =>
        if ctx.sharingClauses.contains sym then st
        else if ctx.privateIterators.contains sym then st
        else
          { st with ctxStack :=
              { ctx with
                privateIterators := sym :: ctx.privateIterators,
                privList := sym :: ctx.privList } :: rest }

/-- C10: calling the DO-iterator predetermination hook on a thread-private
symbol leaves the entire resolution state unchanged: no private-list entry
and no private-iterator insertion in any open context. -/
theorem C10_threadprivate_iterator_noop :
    ∀ (codeId sym : Nat) (st : OmpResolveState),
      gfc_resolve_do_iterator codeId sym true st = st := by
  intro codeId sym st
  rfl

/-! ## The atomic resolver (openmp.c:1543-1996)

Expressions are modelled structurally: variables and constants with an
optional symtree symbol, binary operator nodes, and function calls (used
for both conversion functions and the min/max/iand/ior/ieor intrinsics).
The C code's pointer comparisons (`e == se`, `expr2 == code->expr2`)
compare a node against one of its own strict subterms or against a node
found inside it by structural search; they are modelled by structural
equality. -/

/-- Typespec as consulted by the atomic resolver: basic type and kind. -/
structure ATs where
  bt : BT
  kind : Nat
  deriving DecidableEq, Repr

/-- Binary intrinsic operators (`INTRINSIC_*`); `power` stands for the
operators outside the atomic whitelist. -/
inductive IntrinsicOp where
  | plus
  | times
  | minus
  | divide
  | land
  | lor
  | eqv
  | neqv
  | power
  deriving DecidableEq, Repr

/-- Intrinsic function identifiers (`GFC_ISYM_*`) consulted here. -/
inductive IsymId where
  | conversion
  | minI
  | maxI
  | iandI
  | iorI
  | ieorI
  | otherI
  deriving DecidableEq, Repr

mutual

/-- Expressions (`gfc_expr`): variable / constant (each with optional
symtree symbol), binary operator node, function call (with intrinsic-symbol
tag, external-symbol flag `esym != NULL`, and its `gfc_actual_arglist`).
Each node carries its typespec and rank. -/
inductive GfcExpr where
  | evar (sym : Option Nat) (ts : ATs) (rank : Nat)
  | econst (sym : Option Nat) (ts : ATs) (rank : Nat)
  | eop (iop : IntrinsicOp) (op1 op2 : GfcExpr) (ts : ATs) (rank : Nat)
  | efunc (isym : Option IsymId) (esym : Bool) (args : GfcArgs)
      (ts : ATs) (rank : Nat)
  deriving DecidableEq, Repr

/-- The actual-argument list of a function call (`gfc_actual_arglist`). -/
inductive GfcArgs where
  | nil
  | cons (expr : GfcExpr) (next : GfcArgs)
  deriving DecidableEq, Repr

end

/-- The typespec of an expression node. -/
def GfcExpr.ts : GfcExpr → ATs
  | .evar _ t _ => t
  | .econst _ t _ => t
  | .eop _ _ _ t _ => t
  | .efunc _ _ _ t _ => t

/-- The rank of an expression node. -/
def GfcExpr.rank : GfcExpr → Nat
  | .evar _ _ r => r
  | .econst _ _ r => r
  | .eop _ _ _ _ r => r
  | .efunc _ _ _ _ r => r

/-- Number of actual arguments. -/
def GfcArgs.length : GfcArgs → Nat
  | .nil => 0
  | .cons _ rest => rest.length + 1

mutual

/-- `expr_references_sym` (openmp.c:1543-1578): whether `s` is referenced
in `e` anywhere except in the node `se`.  The EXPR_OP case checks op2
before op1; a function call checks its arguments in order.  The pointer
test `e == se` is modelled by structural equality. -/
def expr_references_sym (e : GfcExpr) (s : Nat) (se : Option GfcExpr) :
    Bool :=
  if se = some e then false
  else
    match e with
    | .evar sym _ _ => sym = some s
    | .econst sym _ _ => sym = some s
    | .eop _ o1 o2 _ _ =>
        expr_references_sym o2 s se || expr_references_sym o1 s se
    | .efunc _ _ args _ _ => args_reference_sym args s se

/-- The argument loop of the EXPR_FUNCTION case. -/
def args_reference_sym (args : GfcArgs) (s : Nat) (se : Option GfcExpr) :
    Bool :=
  match args with
  | .nil => false
  | .cons a rest => expr_references_sym a s se || args_reference_sym rest s se

end

/-- `is_conversion` (openmp.c:1585-1612): if `e` is a conversion function
that widens (resp. narrows) the type, return the inner expression. -/
def is_conversion (e : GfcExpr) (widening : Bool) : Option GfcExpr :=
  match e with
  | .efunc (some .conversion) false (.cons a _) ts _ =>
      let ts1 := if widening then ts else a.ts
      let ts2 := if widening then a.ts else ts
      if btIdx ts1.bt > btIdx ts2.bt
          || (ts1.bt = ts2.bt && ts1.kind > ts2.kind) then some a
      else none
  | _ => none

theorem is_conversion_sizeOf (e : GfcExpr) (w : Bool) (c : GfcExpr)
    (h : is_conversion e w = some c) : sizeOf c < sizeOf e := by
  unfold is_conversion at h
  split at h
  · rename_i a rest ts rank
    split at h <;> dsimp only at h <;> split at h <;>
      first
      | (simp only [Option.some.injEq] at h; subst h; simp; omega)
      | cases h
  · cases h

mutual

/-- Excluding a node can never introduce references: if `e` does not
reference `s` at all, it does not reference it outside any `se`. -/
theorem refs_se_mono (e : GfcExpr) (s : Nat) (se : Option GfcExpr)
    (h : expr_references_sym e s none = false) :
    expr_references_sym e s se = false := by
  rw [expr_references_sym.eq_def] at h
  rw [expr_references_sym.eq_def]
  rw [if_neg (by simp : ¬(none : Option GfcExpr) = some e)] at h
  by_cases hse : se = some e
  · rw [if_pos hse]
  · rw [if_neg hse]
    cases e with
    | evar sym t r => exact h
    | econst sym t r => exact h
    | eop i o1 o2 t r =>
        simp only [Bool.or_eq_false_iff] at h ⊢
        exact ⟨refs_se_mono o2 s se h.1, refs_se_mono o1 s se h.2⟩
    | efunc isym es args t r => exact argrefs_se_mono args s se h

/-- Argument-list version of `refs_se_mono`. -/
theorem argrefs_se_mono (args : GfcArgs) (s : Nat) (se : Option GfcExpr)
    (h : args_reference_sym args s none = false) :
    args_reference_sym args s se = false := by
  cases args with
  | nil => rfl
  | cons a rest =>
      rw [args_reference_sym.eq_def] at h ⊢
      simp only [Bool.or_eq_false_iff] at h ⊢
      exact ⟨refs_se_mono a s se h.1, argrefs_se_mono rest s se h.2⟩

end

/-- The intrinsic-type test that recurs throughout the atomic resolver:
`ts.type` is integer, real, complex or logical. -/
def intrinsicTypeBT (b : BT) : Bool :=
  b = .integer || b = .real || b = .complex || b = .logical

/-- The four-condition shape test recurring in the atomic resolver:
`expr_type == EXPR_VARIABLE && symtree != NULL && rank == 0 &&`
intrinsic type. -/
def scalarIntrinsicVarNode (e : GfcExpr) : Bool :=
  match e with
  | .evar (some _) ts rank => rank = 0 && intrinsicTypeBT ts.bt
  | _ => false

/-- The symtree symbol of a variable node. -/
def varSymOf (e : GfcExpr) : Option Nat :=
  match e with
  | .evar sym _ _ => sym
  | _ => none

/-- `e->expr_type == EXPR_VARIABLE && e->symtree != NULL &&
e->symtree->n.sym == var`. -/
def isVarNodeOf (varSym : Nat) (e : GfcExpr) : Bool :=
  match e with
  | .evar (some s) _ _ => s = varSym
  | _ => false

/-- Error tags of `resolve_omp_atomic`, one per `gfc_error` call site in
source order. -/
inductive AErr where
  | stmtSetScalarIntrinsic
  | readScalarVar
  | writeScalarNoRef
  | captureReadScalarVar
  | captureUpdateSetScalar
  | captureReadsDifferentVar
  | allocatableVar
  | operatorBinary
  | mustBeVarOpExpr
  | mathEquivalence
  | exprScalarNoRef
  | intrinsicTwoArgs
  | intrinsicNameBad
  | intrinsicArgRefsVar
  | intrinsicArgScalar
  | intrinsicFirstLast
  | needOperatorOrIntrinsic
  | captureSetScalarVar2
  | captureReadScalarVar2
  | captureReadsDifferentVar2
  deriving DecidableEq, Repr

/-- The atomic operation kinds (`GFC_OMP_ATOMIC_*`, the mask part). -/
inductive AtomicOp where
  | update
  | read
  | write
  | capture
  deriving DecidableEq, Repr

/-- An assignment statement (`EXEC_ASSIGN`): `expr1 = expr2`. -/
structure AAssign where
  lhs : GfcExpr
  rhs : GfcExpr
  deriving DecidableEq, Repr

/-- Result of the atomic resolver: the errors in emission order, the final
right-hand sides of the statement(s) (after any canonicalization), whether
the SWAP flag was added, and the operation kind (which the resolver never
rewrites). -/
structure AtomicOut where
  errs : List AErr
  rhs1 : GfcExpr
  rhs2 : Option GfcExpr
  swap : Bool
  aopOut : AtomicOp
  deriving DecidableEq, Repr

/-- One frame of the `var = expr op var`-search descent: either an
operator node entered through its op1 slot, or a widening conversion
entered through its argument slot. -/
inductive SpineFrame where
  | opF (iop : IntrinsicOp) (right : GfcExpr) (ts : ATs) (rank : Nat)
  | convF (restArgs : GfcArgs) (ts : ATs) (rank : Nat)
  deriving DecidableEq, Repr

/-- The `p`/`q` descent loop of the EXPR_OP branch (openmp.c:1796-1816):
starting from the slot `&expr2->value.op.op1`, stop at a variable node of
`var` (returning the descent frames and the node), descend through
widening conversions, descend through op1 of scalar operator nodes whose
operator is `op` or `alt_op`, and fail otherwise. -/
def spineSearch (varSym : Nat) (op : IntrinsicOp) (alt : Option IntrinsicOp)
    (e : GfcExpr) : Option (List SpineFrame × GfcExpr) :=
  if isVarNodeOf varSym e then some ([], e)
  else
    match e with
    | .efunc isym esym args ts rank =>
        match h : is_conversion (.efunc isym esym args ts rank) true with
        | some c =>
            match args with
            | .cons _ rest =>
                (spineSearch varSym op alt c).map
                  (fun p => (SpineFrame.convF rest ts rank :: p.1, p.2))
            | .nil => none
        | none => none
    | .eop iop o1 o2 ts rank =>
        if (iop = op || alt = some iop) && rank = 0 then
          (spineSearch varSym op alt o1).map
            (fun p => (SpineFrame.opF iop o2 ts rank :: p.1, p.2))
        else none
    | _ => none
termination_by sizeOf e
decreasing_by
  · exact is_conversion_sizeOf _ true c h
  · simp
    omega

/-- Rebuild the expression along the recorded descent frames. -/
def plugFrames : List SpineFrame → GfcExpr → GfcExpr
  | [], e => e
  | .opF iop right ts rank :: rest, e =>
      .eop iop (plugFrames rest e) right ts rank
  | .convF restArgs ts rank :: rest, e =>
      .efunc (some .conversion) false (.cons (plugFrames rest e) restArgs)
        ts rank

/-- Split off the deepest operator frame (the slot `p` points at); the
suffix after it holds conversion frames only. -/
def splitLastOpFrame : List SpineFrame →
    Option (List SpineFrame × (IntrinsicOp × GfcExpr × ATs × Nat)
            × List SpineFrame)
  | [] => none
  | f :: rest =>
      match splitLastOpFrame rest with
      | some (pre, d, post) => some (f :: pre, d, post)
      | none =>
          match f with
          | .opF iop right ts rank => some ([], (iop, right, ts, rank), rest)
          | .convF _ _ _ => none

/-- Modelled from the spec: `gfc_compare_types` belongs to the external
type component (out of scope per §1); for the intrinsic scalar typespecs
handled here two typespecs agree when basic type and kind agree. -/
def gfc_compare_types (a b : ATs) : Bool := a = b

/-- Modelled from the spec: `gfc_convert_type` belongs to the external
expression component; converting an expression to a typespec is modelled
as wrapping it in a conversion function of that typespec. -/
def gfc_convert_type (e : GfcExpr) (ts : ATs) : GfcExpr :=
  .efunc (some .conversion) false (.cons e .nil) ts e.rank

/-- Store a new expression into
`code->expr2->value.function.actual->expr`, the argument slot of a
conversion wrapper around the right-hand side. -/
def replaceConvArg (w newArg : GfcExpr) : GfcExpr :=
  match w with
  | .efunc isym esym (.cons _ rest) ts rank =>
      .efunc isym esym (.cons newArg rest) ts rank
  | other => other

/-- The `alt_op` table of the EXPR_OP branch (openmp.c:1748-1770). -/
def atomicAltOp (op : IntrinsicOp) : Option IntrinsicOp :=
  match op with
  | .plus => some .minus
  | .times => some .divide
  | .minus => some .plus
  | .divide => some .times
  | .land => none
  | .lor => none
  | .eqv => some .neqv
  | .neqv => some .eqv
  | _ => none

/-- Whether the operator is in the atomic whitelist (the non-default cases
of the switch at openmp.c:1748-1776). -/
def atomicOpOk (op : IntrinsicOp) : Bool :=
  match op with
  | .plus | .times | .minus | .divide | .land | .lor | .eqv | .neqv => true
  | _ => false

/-- The final shape check of the EXPR_OP branch (openmp.c:1864-1870):
`e->rank != 0 || expr_references_sym (code->expr2, var, v)`.  Returns the
errors and whether the branch returned early. -/
def atomicFinalCheck (e v curRhs : GfcExpr) (varSym : Nat) :
    List AErr × Bool :=
  if e.rank ≠ 0 || expr_references_sym curRhs varSym (some v) then
    ([.exprScalarNoRef], true)
  else ([], false)

/-- The rotation/canonicalization step once `v` was found on the op1 spine
(openmp.c:1818-1870): when a deepest operator frame exists (`p != NULL`),
flag `-`, `/`, `.EQV.`, `.NEQV.` as not mathematically equivalent, rotate
the tree so that the deepest operator node becomes the root with the old
root (holding the cut-out right operand) as its parenthesized right
operand, repair the op1 type if needed, and store the new root back into
the statement; finally run the shape check. -/
def atomicOpRotate (varSym : Nat) (curRhs : GfcExpr) (op : IntrinsicOp)
    (o2 : GfcExpr) (ts : ATs) (rank : Nat) (expr2 : GfcExpr)
    (frames : List SpineFrame) (v : GfcExpr) : List AErr × GfcExpr × Bool :=
  match splitLastOpFrame frames with
  | none =>
      let fc := atomicFinalCheck v v curRhs varSym
      (fc.1, curRhs, fc.2)
  | some (pre, (nop, nright, _, nrank), post) =>
      let mathErrs : List AErr :=
        match nop with
        | .minus | .divide | .eqv | .neqv => [.mathEquivalence]
        | _ => []
      let root2 := GfcExpr.eop op (plugFrames pre nright) o2 ts rank
      let newOp1 := plugFrames post v
      let n2 :=
        if gfc_compare_types newOp1.ts ts then
          GfcExpr.eop nop newOp1 root2 ts nrank
        else
          GfcExpr.eop nop (gfc_convert_type v ts) root2 ts nrank
      let newRhs := if curRhs = expr2 then n2 else replaceConvArg curRhs n2
      let fc := atomicFinalCheck n2 v newRhs varSym
      (mathErrs ++ fc.1, newRhs, fc.2)

/-- The EXPR_OP branch of the update path (openmp.c:1742-1871), given the
current statement's full right-hand side `curRhs` (`code->expr2`) and the
(possibly conversion-unwrapped) `expr2`.  Returns the errors, the final
`code->expr2`, and whether the branch returned early. -/
def atomicOpPath (varSym : Nat) (curRhs expr2 : GfcExpr) :
    List AErr × GfcExpr × Bool :=
  match expr2 with
  | .eop op o1 o2 ts rank =>
      if !atomicOpOk op then ([.operatorBinary], curRhs, true)
      else
        let alt := atomicAltOp op
        if isVarNodeOf varSym o2 then
          -- v = e (openmp.c:1785-1788); no rotation happens
          let fc := atomicFinalCheck o2 o2 curRhs varSym
          (fc.1, curRhs, fc.2)
        else
          match is_conversion o2 true with
          | some c =>
              if isVarNodeOf varSym c then
                -- v = c (openmp.c:1789-1793)
                let fc := atomicFinalCheck o2 c curRhs varSym
                (fc.1, curRhs, fc.2)
              else
                match spineSearch varSym op alt o1 with
                | none => ([.mustBeVarOpExpr], curRhs, true)
                | some (frames, v) =>
                    atomicOpRotate varSym curRhs op o2 ts rank expr2 frames v
          | none =>
              match spineSearch varSym op alt o1 with
              | none => ([.mustBeVarOpExpr], curRhs, true)
              | some (frames, v) =>
                  atomicOpRotate varSym curRhs op o2 ts rank expr2 frames v
  | _ => ([], curRhs, false)

/-- Position at which the variable argument was found. -/
inductive VarArgPos where
  | firstA
  | lastA
  deriving DecidableEq, Repr

/-- The argument loop of the intrinsic path (openmp.c:1903-1925): the
variable may appear as the first argument, or as the last if not yet
found; every other argument must not reference it; every argument must be
scalar. -/
def intrinsicArgScan (varSym : Nat) :
    GfcArgs → Bool → Option VarArgPos → Except AErr (Option VarArgPos)
  | .nil, _, found => .ok found
  | .cons a rest, isFirst, found =>
      if (isFirst || (found = none && rest = GfcArgs.nil))
          && isVarNodeOf varSym a then
        if a.rank ≠ 0 then .error .intrinsicArgScalar
        else intrinsicArgScan varSym rest false
          (some (if isFirst then .firstA else .lastA))
      else if expr_references_sym a varSym none then
        .error .intrinsicArgRefsVar
      else if a.rank ≠ 0 then .error .intrinsicArgScalar
      else intrinsicArgScan varSym rest false found

/-- Drop the last actual argument. -/
def GfcArgs.dropLast : GfcArgs → GfcArgs
  | .nil => .nil
  | .cons _ .nil => .nil
  | .cons a (.cons b rest) => .cons a (GfcArgs.cons b rest).dropLast

/-- The last actual argument, if any. -/
def GfcArgs.getLast : GfcArgs → Option GfcExpr
  | .nil => none
  | .cons a .nil => some a
  | .cons _ (.cons b rest) => (GfcArgs.cons b rest).getLast

/-- The EXPR_FUNCTION branch of the update path (openmp.c:1872-1945):
whitelist the intrinsic, scan the arguments, and rotate the variable
argument to the front if it was last. -/
def atomicIntrinsicPath (varSym : Nat) (curRhs expr2 : GfcExpr) :
    List AErr × GfcExpr × Bool :=
  match expr2 with
  | .efunc (some isym) false args ts rank =>
      let nameOk : Option AErr :=
        match isym with
        | .minI | .maxI => none
        | .iandI | .iorI | .ieorI =>
            if args.length > 2 then some .intrinsicTwoArgs else none
        | _ => some .intrinsicNameBad
      match nameOk with
      | some err => ([err], curRhs, true)
      | none =>
          match intrinsicArgScan varSym args true none with
          | .error err => ([err], curRhs, true)
          | .ok none => ([.intrinsicFirstLast], curRhs, true)
          | .ok (some .firstA) => ([], curRhs, false)
          | .ok (some .lastA) =>
              let newArgs :=
                match args.getLast with
                | some l => GfcArgs.cons l args.dropLast
                | none => args
              let ne2 := GfcExpr.efunc (some isym) false newArgs ts rank
              (([] : List AErr),
                if curRhs = expr2 then ne2 else replaceConvArg curRhs ne2,
                false)
  | _ => ([], curRhs, false)

/-- Dispatch on the shape of the (unwrapped) right-hand side: operator
node (openmp.c:1742), eligible intrinsic call (openmp.c:1872-1876), or
the trailing no-operator error (openmp.c:1946-1948, which does not return
early). -/
def atomicRhsDispatch (varSym : Nat) (curRhs expr2 : GfcExpr) :
    List AErr × GfcExpr × Bool :=
  match expr2 with
  | .eop _ _ _ _ _ => atomicOpPath varSym curRhs expr2
  | .efunc (some _) false (.cons _ (.cons _ _)) _ _ =>
      atomicIntrinsicPath varSym curRhs expr2
  | _ => ([.needOperatorOrIntrinsic], curRhs, false)

/-- The common tail of the update/capture paths: the allocatable check
(openmp.c:1728-1733), the swap detection (1735-1741), the right-hand-side
dispatch, and the trailing capture statement checks (1950-1995).
Returns the errors, the final right-hand side of the current statement,
and whether the SWAP flag was added. -/
def atomicTail (aop : AtomicOp) (alloc : Nat → Bool) (var : Nat)
    (curRhs : GfcExpr) (curNext : Option AAssign) (expr2 : GfcExpr) :
    List AErr × GfcExpr × Bool :=
  if alloc var then ([.allocatableVar], curRhs, false)
  else if aop = .capture && curNext = none && curRhs.rank = 0
      && !expr_references_sym curRhs var none then
    ([], curRhs, true)
  else
    let d := atomicRhsDispatch var curRhs expr2
    if d.2.2 then (d.1, d.2.1, false)
    else
      match curNext with
      | some stmt2 =>
          if aop = .capture then
            if !scalarIntrinsicVarNode stmt2.lhs then
              (d.1 ++ [.captureSetScalarVar2], d.2.1, false)
            else
              let e2 :=
                match is_conversion stmt2.rhs false with
                | some c => c
                | none =>
                    match is_conversion stmt2.rhs true with
                    | some c => c
                    | none => stmt2.rhs
              if !scalarIntrinsicVarNode e2 then
                (d.1 ++ [.captureReadScalarVar2], d.2.1, false)
              else if varSymOf e2 ≠ some var then
                (d.1 ++ [.captureReadsDifferentVar2], d.2.1, false)
              else (d.1, d.2.1, false)
          else (d.1, d.2.1, false)
      | none => (d.1, d.2.1, false)

/-- `resolve_omp_atomic` (openmp.c:1615-1996).  `aop` is the operation
kind of the directive, `alloc` the allocatable attribute of each symbol,
`s1` the first assignment under the directive and `s2` the second one
(present exactly for capture, per the asserts at openmp.c:1625-1630). -/
def resolve_omp_atomic (aop : AtomicOp) (alloc : Nat → Bool)
    (s1 : AAssign) (s2 : Option AAssign) : AtomicOut :=
  if !scalarIntrinsicVarNode s1.lhs then
    ⟨[.stmtSetScalarIntrinsic], s1.rhs, s2.map (·.rhs), false, aop⟩
  else
    let var := (varSymOf s1.lhs).getD 0
    let expr2 :=
      match is_conversion s1.rhs false with
      | some c => c
      | none =>
          match (if aop = .read || aop = .write
                 then is_conversion s1.rhs true else none) with
          | some c => c
          | none => s1.rhs
    match aop with
    | .read =>
        ⟨if !scalarIntrinsicVarNode expr2 then [.readScalarVar] else [],
          s1.rhs, s2.map (·.rhs), false, aop⟩
    | .write =>
        ⟨if expr2.rank ≠ 0 || expr_references_sym s1.rhs var none
            then [.writeScalarNoRef] else [],
          s1.rhs, s2.map (·.rhs), false, aop⟩
    | .capture =>
        let expr2_tmp :=
          if expr2 = s1.rhs then
            match is_conversion s1.rhs true with
            | some c => c
            | none => expr2
          else expr2
        (match expr2_tmp with
        | .evar symO tsO rankO =>
            if symO = none || rankO ≠ 0 || !intrinsicTypeBT tsO.bt
                || symO = some var then
              ⟨[.captureReadScalarVar], s1.rhs, s2.map (·.rhs), false, aop⟩
            else
              match s2 with
              | none => ⟨[], s1.rhs, none, false, aop⟩
              | some stmt2 =>
                  if !scalarIntrinsicVarNode stmt2.lhs then
                    ⟨[.captureUpdateSetScalar], s1.rhs, some stmt2.rhs,
                      false, aop⟩
                  else if varSymOf stmt2.lhs ≠ symO then
                    ⟨[.captureReadsDifferentVar], s1.rhs, some stmt2.rhs,
                      false, aop⟩
                  else
                    let var2 := symO.getD 0
                    let expr2b :=
                      match is_conversion stmt2.rhs false with
                      | some c => c
                      | none => stmt2.rhs
                    let r := atomicTail .capture alloc var2 stmt2.rhs none
                      expr2b
                    ⟨r.1, s1.rhs, some r.2.1, r.2.2, aop⟩
        | _ =>
            let r := atomicTail .capture alloc var s1.rhs s2 expr2
            ⟨r.1, r.2.1, s2.map (·.rhs), r.2.2, aop⟩)
    | .update =>
        let r := atomicTail .update alloc var s1.rhs s2 expr2
        ⟨r.1, r.2.1, s2.map (·.rhs), r.2.2, aop⟩

/-- A node that does not reference `x` is not a variable node of `x`. -/
theorem isVarNodeOf_false_of_not_refs (x : Nat) (e : GfcExpr)
    (h : expr_references_sym e x none = false) : isVarNodeOf x e = false := by
  cases e with
  | evar sym ts r =>
      rw [expr_references_sym.eq_def] at h
      rw [if_neg (by simp : ¬(none : Option GfcExpr) = some (.evar sym ts r))] at h
      cases sym with
      | none => simp [isVarNodeOf]
      | some s =>
          simp only [isVarNodeOf]
          simp only [Option.some.injEq, decide_eq_false_iff_not] at h
          simp [h]
  | econst sym ts r => simp [isVarNodeOf]
  | eop i o1 o2 ts r => simp [isVarNodeOf]
  | efunc isym es args ts r => simp [isVarNodeOf]

/-- The inner expression of a conversion of `e` references no symbol that
`e` does not reference. -/
theorem is_conversion_refs (e c : GfcExpr) (w : Bool) (x : Nat)
    (hc : is_conversion e w = some c)
    (h : expr_references_sym e x none = false) :
    expr_references_sym c x none = false := by
  unfold is_conversion at hc
  split at hc
  · rename_i a rest ts rank
    have hca : c = a := by
      split at hc <;> dsimp only at hc <;> split at hc <;>
        simp_all
    subst hca
    rw [expr_references_sym.eq_def] at h
    rw [if_neg (by simp : ¬(none : Option GfcExpr) = some _)] at h
    dsimp only at h
    rw [args_reference_sym.eq_def] at h
    simp only [Bool.or_eq_false_iff] at h
    exact h.1
  · cases hc

/-- `var = var op expr`: the spine search finds the variable directly at
op1 and the branch accepts without rotating or reporting. -/
theorem atomicOpPath_var_left (x : Nat) (iop : IntrinsicOp) (vts tso : ATs)
    (orank : Nat) (expr : GfcExpr) (hop : atomicOpOk iop = true)
    (hrefs : expr_references_sym expr x none = false) :
    atomicOpPath x (.eop iop (.evar (some x) vts 0) expr tso orank)
      (.eop iop (.evar (some x) vts 0) expr tso orank)
      = ([], .eop iop (.evar (some x) vts 0) expr tso orank, false) := by
  have hm : expr_references_sym expr x (some (.evar (some x) vts 0)) = false :=
    refs_se_mono _ _ _ hrefs
  have hvn := isVarNodeOf_false_of_not_refs x expr hrefs
  have hsearch : spineSearch x iop (atomicAltOp iop) (.evar (some x) vts 0)
      = some ([], .evar (some x) vts 0) := by
    simp [spineSearch, isVarNodeOf]
  rcases hconv : is_conversion expr true with _ | c
  · simp [atomicOpPath, hop, hvn, hconv, hsearch, atomicOpRotate,
      splitLastOpFrame, atomicFinalCheck, GfcExpr.rank,
      expr_references_sym, hm]
  · have hvc := isVarNodeOf_false_of_not_refs x c
      (is_conversion_refs expr c true x hconv hrefs)
    simp [atomicOpPath, hop, hvn, hconv, hvc, hsearch, atomicOpRotate,
      splitLastOpFrame, atomicFinalCheck, GfcExpr.rank,
      expr_references_sym, hm]

/-- `var = expr op var`: the variable is recognized directly as the right
operand and the branch accepts without rotating or reporting. -/
theorem atomicOpPath_var_right (x : Nat) (iop : IntrinsicOp) (vts tso : ATs)
    (orank : Nat) (expr : GfcExpr) (hop : atomicOpOk iop = true)
    (hrefs : expr_references_sym expr x none = false) :
    atomicOpPath x (.eop iop expr (.evar (some x) vts 0) tso orank)
      (.eop iop expr (.evar (some x) vts 0) tso orank)
      = ([], .eop iop expr (.evar (some x) vts 0) tso orank, false) := by
  have hm : expr_references_sym expr x (some (.evar (some x) vts 0)) = false :=
    refs_se_mono _ _ _ hrefs
  simp [atomicOpPath, hop, isVarNodeOf, atomicFinalCheck, GfcExpr.rank,
    expr_references_sym, hm]

/-- Default integer typespec used in concrete atomic examples. -/
def aI4 : ATs := { bt := .integer, kind := 4 }

/-- The variable `x` of the concrete atomic examples. -/
def c3VarX : GfcExpr := .evar (some 0) aI4 0

/-- The right-hand side `1 - x` (shape `expr - x`). -/
def c3RhsExprMinusX : GfcExpr := .eop .minus (.econst none aI4 0) c3VarX aI4 0

/-- C3 counterexample: for the atomic update `x = 1 - x` the resolver
accepts the assignment unchanged with zero diagnostics: no
math-equivalence advisory is emitted and the right-hand side is not
rewritten into `x - (1)`. -/
theorem C3_counterexample :
    resolve_omp_atomic .update (fun _ => false)
      { lhs := c3VarX, rhs := c3RhsExprMinusX } none
      = { errs := [], rhs1 := c3RhsExprMinusX, rhs2 := none,
          swap := false, aopOut := .update } := by
  rfl

/-- C3 (amended): for an atomic update `x = expr op x` with a whitelisted
operator and `expr` not referencing `x`, the resolver recognizes `x`
directly as the right operand of the top operator node and accepts the
assignment unchanged — no rotation and no math-equivalence advisory; for
`x = x op expr` it likewise accepts the assignment unchanged with no
diagnostic.  (The rotation with the advisory occurs only when the
variable sits deeper on the left spine, e.g. `x = x - e1 + e2`.) -/
theorem C3_atomic_minus_canonicalization :
    (∀ (x : Nat) (tsl vts tso : ATs) (orank : Nat) (expr : GfcExpr)
       (alloc : Nat → Bool),
       intrinsicTypeBT tsl.bt = true → alloc x = false →
       expr_references_sym expr x none = false →
       resolve_omp_atomic .update alloc
         { lhs := .evar (some x) tsl 0,
           rhs := .eop .minus expr (.evar (some x) vts 0) tso orank } none
         = { errs := [],
             rhs1 := .eop .minus expr (.evar (some x) vts 0) tso orank,
             rhs2 := none, swap := false, aopOut := .update })
    ∧ (∀ (x : Nat) (tsl vts tso : ATs) (orank : Nat) (expr : GfcExpr)
       (alloc : Nat → Bool),
       intrinsicTypeBT tsl.bt = true → alloc x = false →
       expr_references_sym expr x none = false →
       resolve_omp_atomic .update alloc
         { lhs := .evar (some x) tsl 0,
           rhs := .eop .minus (.evar (some x) vts 0) expr tso orank } none
         = { errs := [],
             rhs1 := .eop .minus (.evar (some x) vts 0) expr tso orank,
             rhs2 := none, swap := false, aopOut := .update }) := by
  constructor
  · intro x tsl vts tso orank expr alloc htsl halloc hrefs
    have hpath := atomicOpPath_var_right x .minus vts tso orank expr
      (by decide) hrefs
    simp [resolve_omp_atomic, scalarIntrinsicVarNode, htsl, varSymOf,
      is_conversion, atomicTail, halloc, atomicRhsDispatch, hpath]
  · intro x tsl vts tso orank expr alloc htsl halloc hrefs
    have hpath := atomicOpPath_var_left x .minus vts tso orank expr
      (by decide) hrefs
    simp [resolve_omp_atomic, scalarIntrinsicVarNode, htsl, varSymOf,
      is_conversion, atomicTail, halloc, atomicRhsDispatch, hpath]

/-- Witness for C3 (amended) at `x = 1 - x` with integer `x`. -/
theorem C3_atomic_minus_canonicalization_witness :
    (intrinsicTypeBT aI4.bt = true
      ∧ expr_references_sym (.econst none aI4 0) 0 none = false)
    ∧ resolve_omp_atomic .update (fun _ => false)
        { lhs := .evar (some 0) aI4 0,
          rhs := .eop .minus (.econst none aI4 0) (.evar (some 0) aI4 0)
                   aI4 0 } none
        = { errs := [],
            rhs1 := .eop .minus (.econst none aI4 0) (.evar (some 0) aI4 0)
                      aI4 0,
            rhs2 := none, swap := false, aopOut := .update } :=
  ⟨⟨by decide, by decide⟩,
   C3_atomic_minus_canonicalization.1 0 aI4 aI4 aI4 0
     (.econst none aI4 0) (fun _ => false) (by decide) rfl (by decide)⟩

/-- C4: for a two-statement capture whose first statement is the update
`x = x op expr` (whitelisted operator, `expr` not referencing `x`,
well-shaped), a second statement reading from a different variable `y`
is rejected with exactly the reads-from-different-variable error and
nothing after it, while a second statement reading from `x` resolves
with zero errors and the directive keeps the capture operation kind. -/
theorem C4_atomic_capture_variable_match :
    (∀ (x y : Nat) (tsl vts tso tsy : ATs) (orank : Nat)
       (iop : IntrinsicOp) (expr wlhs : GfcExpr) (alloc : Nat → Bool),
       intrinsicTypeBT tsl.bt = true → alloc x = false →
       atomicOpOk iop = true →
       expr_references_sym expr x none = false →
       scalarIntrinsicVarNode wlhs = true →
       intrinsicTypeBT tsy.bt = true → y ≠ x →
       (resolve_omp_atomic .capture alloc
         { lhs := .evar (some x) tsl 0,
           rhs := .eop iop (.evar (some x) vts 0) expr tso orank }
         (some { lhs := wlhs, rhs := .evar (some y) tsy 0 })).errs
         = [.captureReadsDifferentVar2])
    ∧ (∀ (x : Nat) (tsl vts tso tsy : ATs) (orank : Nat)
       (iop : IntrinsicOp) (expr wlhs : GfcExpr) (alloc : Nat → Bool),
       intrinsicTypeBT tsl.bt = true → alloc x = false →
       atomicOpOk iop = true →
       expr_references_sym expr x none = false →
       scalarIntrinsicVarNode wlhs = true →
       intrinsicTypeBT tsy.bt = true →
       resolve_omp_atomic .capture alloc
         { lhs := .evar (some x) tsl 0,
           rhs := .eop iop (.evar (some x) vts 0) expr tso orank }
         (some { lhs := wlhs, rhs := .evar (some x) tsy 0 })
         = { errs := [],
             rhs1 := .eop iop (.evar (some x) vts 0) expr tso orank,
             rhs2 := some (.evar (some x) tsy 0),
             swap := false, aopOut := .capture }) := by
  constructor
  · intro x y tsl vts tso tsy orank iop expr wlhs alloc
      htsl halloc hop hrefs hw htsy hyx
    have hpath := atomicOpPath_var_left x iop vts tso orank expr hop hrefs
    have hlhs : scalarIntrinsicVarNode (.evar (some x) tsl 0) = true := by
      simp [scalarIntrinsicVarNode, htsl]
    have he2 : scalarIntrinsicVarNode (.evar (some y) tsy 0) = true := by
      simp [scalarIntrinsicVarNode, htsy]
    simp [resolve_omp_atomic, hlhs, he2, varSymOf,
      is_conversion, atomicTail, halloc, atomicRhsDispatch, hpath, hw,
      hyx]
  · intro x tsl vts tso tsy orank iop expr wlhs alloc
      htsl halloc hop hrefs hw htsy
    have hpath := atomicOpPath_var_left x iop vts tso orank expr hop hrefs
    have hlhs : scalarIntrinsicVarNode (.evar (some x) tsl 0) = true := by
      simp [scalarIntrinsicVarNode, htsl]
    have he2 : scalarIntrinsicVarNode (.evar (some x) tsy 0) = true := by
      simp [scalarIntrinsicVarNode, htsy]
    simp [resolve_omp_atomic, hlhs, he2, varSymOf,
      is_conversion, atomicTail, halloc, atomicRhsDispatch, hpath, hw]

/-- Witness for C4 at `x = x + 1; w = x` with integer variables. -/
theorem C4_atomic_capture_variable_match_witness :
    (intrinsicTypeBT aI4.bt = true ∧ atomicOpOk .plus = true
      ∧ expr_references_sym (.econst none aI4 0) 0 none = false
      ∧ scalarIntrinsicVarNode (.evar (some 1) aI4 0) = true)
    ∧ resolve_omp_atomic .capture (fun _ => false)
        { lhs := .evar (some 0) aI4 0,
          rhs := .eop .plus (.evar (some 0) aI4 0) (.econst none aI4 0)
                   aI4 0 }
        (some { lhs := .evar (some 1) aI4 0, rhs := .evar (some 0) aI4 0 })
        = { errs := [],
            rhs1 := .eop .plus (.evar (some 0) aI4 0) (.econst none aI4 0)
                      aI4 0,
            rhs2 := some (.evar (some 0) aI4 0),
            swap := false, aopOut := .capture } :=
  ⟨⟨by decide, by decide, by decide, by decide⟩,
   C4_atomic_capture_variable_match.2 0 aI4 aI4 aI4 aI4 0 .plus
     (.econst none aI4 0) (.evar (some 1) aI4 0) (fun _ => false)
     (by decide) rfl (by decide) (by decide) (by decide) (by decide)⟩

/-- C7 counterexample: an atomic read `v = x` with `v` allocatable (scalar
integer) resolves with zero errors: the read case returns before the
allocatable check. -/
theorem C7_counterexample :
    (resolve_omp_atomic .read (fun _ => true)
      { lhs := .evar (some 0) aI4 0, rhs := .evar (some 1) aI4 0 }
      none).errs = [] := by
  rfl

/-- C7 (amended): the allocatable rejection fires for update and capture
kinds (once the first statement passes the set-a-scalar-variable check;
for capture, with an operator-shaped first right-hand side), but for read
and write kinds the resolver returns inside the kind switch and never
reports the allocatable error. -/
theorem C7_atomic_allocatable :
    (∀ (x : Nat) (tsl : ATs) (rhs : GfcExpr) (s2 : Option AAssign)
       (alloc : Nat → Bool),
       intrinsicTypeBT tsl.bt = true → alloc x = true →
       (resolve_omp_atomic .update alloc
         { lhs := .evar (some x) tsl 0, rhs := rhs } s2).errs
         = [.allocatableVar])
    ∧ (∀ (x : Nat) (tsl tso : ATs) (orank : Nat) (iop : IntrinsicOp)
       (o p : GfcExpr) (s2 : Option AAssign) (alloc : Nat → Bool),
       intrinsicTypeBT tsl.bt = true → alloc x = true →
       (resolve_omp_atomic .capture alloc
         { lhs := .evar (some x) tsl 0,
           rhs := .eop iop o p tso orank } s2).errs
         = [.allocatableVar])
    ∧ (∀ (s1 : AAssign) (s2 : Option AAssign) (alloc : Nat → Bool),
       AErr.allocatableVar ∉ (resolve_omp_atomic .read alloc s1 s2).errs)
    ∧ (∀ (s1 : AAssign) (s2 : Option AAssign) (alloc : Nat → Bool),
       AErr.allocatableVar ∉ (resolve_omp_atomic .write alloc s1 s2).errs) := by
  refine ⟨?_, ?_, ?_, ?_⟩
  · intro x tsl rhs s2 alloc htsl halloc
    simp [resolve_omp_atomic, scalarIntrinsicVarNode, htsl, varSymOf,
      atomicTail, halloc]
  · intro x tsl tso orank iop o p s2 alloc htsl halloc
    simp [resolve_omp_atomic, scalarIntrinsicVarNode, htsl, varSymOf,
      is_conversion, atomicTail, halloc]
  · intro s1 s2 alloc
    by_cases hsc : scalarIntrinsicVarNode s1.lhs
    · simp only [resolve_omp_atomic, hsc]
      split <;> simp
    · simp [resolve_omp_atomic, hsc]
  · intro s1 s2 alloc
    by_cases hsc : scalarIntrinsicVarNode s1.lhs
    · simp only [resolve_omp_atomic, hsc]
      split <;> simp
    · simp [resolve_omp_atomic, hsc]

/-- Witness for C7 (amended) at an update with allocatable target. -/
theorem C7_atomic_allocatable_witness :
    intrinsicTypeBT aI4.bt = true
    ∧ (resolve_omp_atomic .update (fun _ => true)
        { lhs := .evar (some 0) aI4 0,
          rhs := .eop .minus (.evar (some 0) aI4 0) (.econst none aI4 0)
                   aI4 0 } none).errs
        = [.allocatableVar] :=
  ⟨by decide,
   C7_atomic_allocatable.1 0 aI4
     (.eop .minus (.evar (some 0) aI4 0) (.econst none aI4 0) aI4 0)
     none (fun _ => true) (by decide) rfl⟩

/-! ## OpenACC kernels decomposition (omp-oacc-kernels.c)

Trees are modelled structurally: clause chains as lists, gimple sequences
as lists of statements.  `unshare_expr` copies a chain, so on values it is
the identity and is not written out. -/

/-- Clause codes (`OMP_CLAUSE_*`) distinguished by the pass. -/
inductive ClauseCode where
  | numGangs
  | mapC
  | ifC
  | autoC
  | independent
  | seqC
  | otherC
  deriving DecidableEq, Repr

/-- Map kinds (`GOMP_MAP_*`) distinguished by the pass. -/
inductive MapKind where
  | allocM
  | forcePresent
  | pointerM
  | toPset
  | forceTofrom
  | fpPointer
  | fpReference
  | otherM
  deriving DecidableEq, Repr

/-- One clause of a chain: code, first operand (`OMP_CLAUSE_OPERAND` /
`OMP_CLAUSE_DECL`, as an id), map kind and size. -/
structure OClause where
  code : ClauseCode
  operand : Nat
  mapKind : MapKind
  size : Nat
  deriving DecidableEq, Repr

/-- A local variable declaration record of a bind. -/
structure VarDecl where
  id : Nat
  artificial : Bool
  isConst : Bool
  size : Nat
  deriving DecidableEq, Repr

/-- Target-region kinds (`GF_OMP_TARGET_KIND_*`) used by the pass. -/
inductive TargetKind where
  | oaccKernels
  | parallelized
  | gangSingle
  | dataKernels
  | otherT
  deriving DecidableEq, Repr

/-- Gimple statements, restricted to the shapes the pass inspects:
assignments (with the lhs facts it queries), OMP for loops, binds,
try-finally statements, target regions, calls and no-ops. -/
inductive Gimple where
  | assign (lhsIsVarDecl : Bool) (lhsArtificial : Bool)
  | ompFor (clauses : List OClause) (body : List Gimple)
  | bind (vars : List VarDecl) (body : List Gimple)
  | tryStmt (evalSeq cleanupSeq : List Gimple)
  | ompTarget (kind : TargetKind) (clauses : List OClause)
      (body : List Gimple)
  | call (fn : Nat)
  | nop
  | other

/-- The non-singleton-bind arm of `top_level_omp_for_in_stmt`
(omp-oacc-kernels.c:104-119): a block of optional assignments followed by
an OMP_FOR at the very end. -/
def scanSetupBody : List Gimple → Option Gimple
  | [] => none
  | s :: rest =>
      match s with
      | .assign _ _ => scanSetupBody rest
      | .ompFor cs b =>
          match rest with
          | [] => some (.ompFor cs b)
          | _ => none
      | _ => none

/-- `top_level_omp_for_in_stmt` (omp-oacc-kernels.c:77-123). -/
def top_level_omp_for_in_stmt (stmt : Gimple) : Option Gimple :=
  match stmt with
  | .ompFor cs b => some (.ompFor cs b)
  | .bind _ body =>
      match body with
      | [single] =>
          (match single with
           | .ompFor cs b => some (.ompFor cs b)
           | .tryStmt ev _ =>
               (match ev with
                | [.ompFor cs b] => some (.ompFor cs b)
                | _ => none)
           | _ => none)
      | _ => scanSetupBody body
  | _ => none

/-- `flatten_binds` (omp-oacc-kernels.c:237-292), functionally: flatten
nested binds (except those that qualify as top-level-loop wrappers) into
one sequence and collect the local variables of the eliminated binds, in
encounter order. -/
def flatten_stmts : List Gimple → List VarDecl × List Gimple
  | [] => ([], [])
  | stmt :: rest =>
      let r := flatten_stmts rest
      match stmt with
      | .bind bvars bbody =>
          match top_level_omp_for_in_stmt (.bind bvars bbody) with
          | some _ => (r.1, .bind bvars bbody :: r.2)
          | none =>
              let inner := flatten_stmts bbody
              (bvars ++ inner.1 ++ r.1, inner.2 ++ r.2)
      | s => (r.1, s :: r.2)
termination_by l => sizeOf l
decreasing_by
  all_goals simp
  all_goals omega

/-- Cut the first num_gangs clause out of the chain
(omp-oacc-kernels.c:400-417). -/
def cutNumGangs : List OClause → Option OClause × List OClause
  | [] => (none, [])
  | c :: rest =>
      if c.code = .numGangs then (some c, rest)
      else
        let r := cutNumGangs rest
        (r.1, c :: r.2)

/-- `make_gang_single_region` (omp-oacc-kernels.c:130-151): a gang-single
region annotated with a fresh `num_gangs(1)` clause in front of (a copy
of) CLAUSES, wrapping the statements in a bind. -/
def make_gang_single_region (stmts : List Gimple)
    (clauses : List OClause) : Gimple :=
  .ompTarget .gangSingle
    ({ code := .numGangs, operand := 1, mapKind := .otherM, size := 0 }
      :: clauses)
    [.bind [] stmts]

/-- `transform_kernels_loop_clauses` (omp-oacc-kernels.c:156-194): give
the loop an `auto` clause unless it already carries auto/independent/seq,
and prepend the kernels region's num_gangs clause (if any) to the new
parallel region's clauses.  Returns (new loop clauses, region clauses). -/
def transform_kernels_loop_clauses (loopClauses : List OClause)
    (numGangsClause : Option OClause) (clauses : List OClause) :
    List OClause × List OClause :=
  let addAuto := !(loopClauses.any (fun c =>
    c.code = .autoC || c.code = .independent || c.code = .seqC))
  let newLoop :=
    if addAuto then
      { code := .autoC, operand := 0, mapKind := .otherM, size := 0 }
        :: loopClauses
    else loopClauses
  let newClauses :=
    match numGangsClause with
    | some ng => ng :: clauses
    | none => clauses
  (newLoop, newClauses)

/-- Replace the loop located by `top_level_omp_for_in_stmt` inside STMT.
This models the in-place update of the loop's clause chain performed by
`gimple_omp_for_set_clauses` through the pointer into STMT. -/
def replaceSetupFor : List Gimple → Gimple → List Gimple
  | [], _ => []
  | s :: rest, nf =>
      match s with
      | .assign a b => .assign a b :: replaceSetupFor rest nf
      | .ompFor cs b =>
          match rest with
          | [] => [nf]
          | _ => .ompFor cs b :: rest
      | _ => s :: rest

/-- Statement-level companion of `replaceSetupFor`, mirroring the
unwrapping grammar of `top_level_omp_for_in_stmt`. -/
def replaceTopLevelFor (stmt : Gimple) (nf : Gimple) : Gimple :=
  match stmt with
  | .ompFor _ _ => nf
  | .bind bv body =>
      (match body with
       | [single] =>
           (match single with
            | .ompFor _ _ => .bind bv [nf]
            | .tryStmt ev cl =>
                (match ev with
                 | [.ompFor _ _] => .bind bv [.tryStmt [nf] cl]
                 | _ => .bind bv [single])
            | s => .bind bv [s])
       | _ => .bind bv (replaceSetupFor body nf))
  | s => s

/-- Accumulator of the scanning loop of `decompose_kernels_region_body`
(omp-oacc-kernels.c:478-548). -/
structure ScanState where
  regionBody : List Gimple
  gangSeq : List Gimple
  onlySimple : Bool

/-- One iteration of the scanning loop (omp-oacc-kernels.c:491-548),
with `make_gang_parallel_loop_region` (203-227) inlined: on a top-level
loop, flush any pending complex sequential run into a gang-single region
(or fold a pending run of simple assignments into the loop's wrapping
bind), then emit a parallel region for the loop; otherwise accumulate the
statement into the pending gang-single run. -/
def scanStep (kernelsClauses : List OClause) (numGangs : Option OClause)
    (st : ScanState) (stmt : Gimple) : ScanState :=
  match top_level_omp_for_in_stmt stmt with
  | some (.ompFor lc lb) =>
      let t := transform_kernels_loop_clauses lc numGangs kernelsClauses
      let stmtUpd := replaceTopLevelFor stmt (.ompFor t.1 lb)
      let rb1 :=
        if !st.gangSeq.isEmpty && !st.onlySimple then
          st.regionBody ++ [make_gang_single_region st.gangSeq kernelsClauses]
        else st.regionBody
      let stmtFinal :=
        if !st.gangSeq.isEmpty && st.onlySimple then
          Gimple.bind [] (st.gangSeq ++ [stmtUpd])
        else stmtUpd
      { regionBody := rb1 ++
          [Gimple.ompTarget .parallelized t.2 [.bind [] [stmtFinal]]],
        gangSeq := [], onlySimple := true }
  | some _ => st
  | none =>
      let isSimple :=
        match stmt with
        | .assign true true => true
        | _ => false
      { st with
        gangSeq := st.gangSeq ++ [stmt]
        onlySimple := st.onlySimple && isSimple }

/-- The scanning loop of `decompose_kernels_region_body` plus its
epilogue (omp-oacc-kernels.c:478-567): fold the body statements through
`scanStep`, synthesize a no-op placeholder when the region produced
nothing at all, and flush the remaining gang-single run. -/
def scanRegionBody (kernelsClauses : List OClause) (ng : Option OClause)
    (bodySeq : List Gimple) : List Gimple :=
  let st := bodySeq.foldl (scanStep kernelsClauses ng)
    { regionBody := [], gangSeq := [], onlySimple := true }
  let st1 :=
    if st.regionBody.isEmpty && st.gangSeq.isEmpty then
      { st with gangSeq := [Gimple.nop] }
    else st
  if !st1.gangSeq.isEmpty then
    st1.regionBody ++ [make_gang_single_region st1.gangSeq kernelsClauses]
  else st1.regionBody

/-- `maybe_build_inner_data_region` (omp-oacc-kernels.c:316-386):
partition the collected variables into artificial ones (kept in a new
innermost bind; all variables count as artificial inside a template
instantiation) and mapped ones (getting `create`-style alloc map clauses
on a new inner data region whose body is cleanup-guarded by a
`GOACC_data_end` call). -/
def maybe_build_inner_data_region (body : Gimple) (vars : List VarDecl)
    (cleanup : Option (List Gimple)) (inTemplate : Bool) : Gimple :=
  let artificialVars := (vars.filter (fun v =>
      v.artificial || v.isConst || inTemplate)).reverse
  let mappedVars := vars.filter (fun v =>
      !(v.artificial || v.isConst || inTemplate))
  let dataClauses := (mappedVars.map (fun v =>
      ({ code := .mapC, operand := v.id, mapKind := .allocM,
         size := v.size } : OClause))).reverse
  let body2 :=
    if !artificialVars.isEmpty then Gimple.bind artificialVars [body]
    else body
  if !dataClauses.isEmpty then
    let region := Gimple.ompTarget .dataKernels dataClauses
      [.tryStmt [body2] [.call 0]]
    let bindBody :=
      match cleanup with
      | some cl => Gimple.tryStmt [region] cl
      | none => region
    Gimple.bind mappedVars [bindBody]
  else body2

/-- `decompose_kernels_region_body` (omp-oacc-kernels.c:391-579).
`inTemplate` is `DECL_LANG_SPECIFIC (current_function_decl) &&
DECL_TEMPLATE_INSTANTIATION (...)`. -/
def decompose_kernels_region_body (kernelsRegion : Gimple)
    (kernelsClauses0 : List OClause) (inTemplate : Bool) : Gimple :=
  let cut := cutNumGangs kernelsClauses0
  let numGangsClause := cut.1
  let kernelsClauses1 := cut.2
  let kb :=
    match kernelsRegion with
    | .ompTarget _ _ [b] => b
    | _ => .bind [] []
  let kvars := match kb with | .bind vs _ => vs | _ => []
  let kbody := match kb with | .bind _ b => b | _ => []
  let fl := flatten_stmts kbody
  let innerVars := fl.1
  let bodySeq0 := fl.2
  let kernelsClauses := innerVars.foldl
    (fun acc v =>
      if !v.artificial && !v.isConst then
        ({ code := .mapC, operand := v.id, mapKind := .forcePresent,
           size := v.size } : OClause) :: acc
      else acc) kernelsClauses1
  let tu : Option (List Gimple) × List Gimple :=
    match bodySeq0 with
    | (Gimple.tryStmt ev cl) :: rest =>
        (match rest with
         | [] => (some cl, ev)
         | _ => (some cl, ev ++ rest))
    | _ => (none, bodySeq0)
  let innerCleanup := tu.1
  let bodySeq := tu.2
  let body1 := Gimple.bind kvars
    (scanRegionBody kernelsClauses numGangsClause bodySeq)
  maybe_build_inner_data_region body1 innerVars innerCleanup inTemplate

mutual

/-- The gang-single and parallel-loop child regions of a decomposed tree:
collected at target nodes of those kinds, looking through binds, data
regions and the protected parts of try statements (cleanup sequences hold
finalization code, not decomposed regions). -/
def childRegions (g : Gimple) : List Gimple :=
  match g with
  | .ompTarget k cl b =>
      if k = .gangSingle || k = .parallelized then [.ompTarget k cl b]
      else childRegionsSeq b
  | .bind _ b => childRegionsSeq b
  | .tryStmt ev _ => childRegionsSeq ev
  | _ => []

/-- Sequence version of `childRegions`. -/
def childRegionsSeq (l : List Gimple) : List Gimple :=
  match l with
  | [] => []
  | s :: rest => childRegions s ++ childRegionsSeq rest

end

/-- The operands of the num_gangs clauses of a chain. -/
def numGangsOperands (cs : List OClause) : List Nat :=
  (cs.filter (fun c => c.code = .numGangs)).map (fun c => c.operand)

/-- The clause chain of a target region. -/
def targetClauses : Gimple → List OClause
  | .ompTarget _ cl _ => cl
  | _ => []

/-- The kind of a target region. -/
def targetKind : Gimple → Option TargetKind
  | .ompTarget k _ _ => some k
  | _ => none

/-- The routing property of one child region: gang-single regions carry
num_gangs operand 1 only; parallel-loop regions carry the original
operand `g` only; and the region is a target node of one of these two
kinds. -/
def gangClauseOk (g : Nat) (r : Gimple) : Prop :=
  (targetKind r = some .gangSingle →
    numGangsOperands (targetClauses r) = [1])
  ∧ (targetKind r = some .parallelized →
    numGangsOperands (targetClauses r) = [g])
  ∧ ∃ kk cl b, r = Gimple.ompTarget kk cl b
      ∧ (kk = TargetKind.gangSingle ∨ kk = TargetKind.parallelized)

theorem numGangsOperands_cons_pos (c : OClause) (rest : List OClause)
    (hc : c.code = .numGangs) :
    numGangsOperands (c :: rest) = c.operand :: numGangsOperands rest := by
  simp [numGangsOperands, List.filter_cons, hc]

theorem numGangsOperands_cons_neg (c : OClause) (rest : List OClause)
    (hc : ¬ c.code = .numGangs) :
    numGangsOperands (c :: rest) = numGangsOperands rest := by
  simp [numGangsOperands, List.filter_cons, hc]

theorem cutNumGangs_spec (cs : List OClause) (g : Nat)
    (h : numGangsOperands cs = [g]) :
    (∃ c, (cutNumGangs cs).1 = some c ∧ c.code = .numGangs
      ∧ c.operand = g)
    ∧ numGangsOperands (cutNumGangs cs).2 = [] := by
  induction cs with
  | nil => simp [numGangsOperands] at h
  | cons c rest ih =>
      by_cases hc : c.code = ClauseCode.numGangs
      · rw [numGangsOperands_cons_pos c rest hc] at h
        simp only [List.cons.injEq] at h
        refine ⟨⟨c, ?_, hc, h.1⟩, ?_⟩
        · simp [cutNumGangs, hc]
        · simp only [cutNumGangs, hc, if_true]
          exact h.2
      · rw [numGangsOperands_cons_neg c rest hc] at h
        obtain ⟨h1, h2⟩ := ih h
        constructor
        · simpa [cutNumGangs, hc] using h1
        · simp only [cutNumGangs, hc, if_false]
          rw [numGangsOperands_cons_neg c _ hc]
          exact h2

theorem presentFold_numGangs (vars : List VarDecl) (base : List OClause) :
    numGangsOperands (vars.foldl
      (fun acc v =>
        if !v.artificial && !v.isConst then
          ({ code := .mapC, operand := v.id, mapKind := .forcePresent,
             size := v.size } : OClause) :: acc
        else acc) base) = numGangsOperands base := by
  induction vars generalizing base with
  | nil => simp
  | cons v rest ih =>
      simp only [List.foldl_cons]
      rw [ih]
      split
      · simp [numGangsOperands, List.filter_cons]
      · rfl

theorem make_gang_single_region_clauses (g : Nat) (stmts : List Gimple)
    (kcs : List OClause) (h : numGangsOperands kcs = []) :
    gangClauseOk g (make_gang_single_region stmts kcs) := by
  refine ⟨?_, ?_, ?_⟩
  · intro _
    simp only [make_gang_single_region, targetClauses]
    rw [numGangsOperands_cons_pos _ _ rfl, h]
  · intro hk
    simp [make_gang_single_region, targetKind] at hk
  · exact ⟨.gangSingle, _, _, rfl, Or.inl rfl⟩

theorem parallel_region_clauses (g : Nat) (lc : List OClause)
    (c : OClause) (kcs : List OClause) (body : List Gimple)
    (hc : c.code = .numGangs) (hco : c.operand = g)
    (h : numGangsOperands kcs = []) :
    gangClauseOk g (Gimple.ompTarget .parallelized
      (transform_kernels_loop_clauses lc (some c) kcs).2 body) := by
  refine ⟨?_, ?_, ?_⟩
  · intro hk
    simp [targetKind] at hk
  · intro _
    simp only [targetClauses, transform_kernels_loop_clauses]
    rw [numGangsOperands_cons_pos _ _ hc, hco, h]
  · exact ⟨.parallelized, _, _, rfl, Or.inr rfl⟩

theorem scanStep_inv (g : Nat) (kcs : List OClause) (c : OClause)
    (hkcs : numGangsOperands kcs = []) (hc : c.code = .numGangs)
    (hco : c.operand = g) (st : ScanState) (stmt : Gimple)
    (hst : ∀ r ∈ st.regionBody, gangClauseOk g r) :
    ∀ r ∈ (scanStep kcs (some c) st stmt).regionBody, gangClauseOk g r := by
  intro r hr
  rcases htl : top_level_omp_for_in_stmt stmt with _ | f
  · simp only [scanStep, htl] at hr
    exact hst r hr
  · cases f <;> simp only [scanStep, htl] at hr
    case ompFor lc lb =>
      rcases List.mem_append.mp hr with hr1 | hr1
      · by_cases hcase : !st.gangSeq.isEmpty && !st.onlySimple
        · rw [if_pos hcase] at hr1
          rcases List.mem_append.mp hr1 with hr2 | hr2
          · exact hst r hr2
          · rw [List.mem_singleton] at hr2
            subst hr2
            exact make_gang_single_region_clauses g _ _ hkcs
        · rw [if_neg hcase] at hr1
          exact hst r hr1
      · rw [List.mem_singleton] at hr1
        subst hr1
        exact parallel_region_clauses g lc c kcs _ hc hco hkcs
    all_goals exact hst r hr

theorem scanRegionBody_inv (g : Nat) (kcs : List OClause) (c : OClause)
    (hkcs : numGangsOperands kcs = []) (hc : c.code = .numGangs)
    (hco : c.operand = g) (bodySeq : List Gimple) :
    ∀ r ∈ scanRegionBody kcs (some c) bodySeq, gangClauseOk g r := by
  have hfold : ∀ (l : List Gimple) (st : ScanState),
      (∀ r ∈ st.regionBody, gangClauseOk g r) →
      ∀ r ∈ (l.foldl (scanStep kcs (some c)) st).regionBody,
        gangClauseOk g r := by
    intro l
    induction l with
    | nil => intro st hst; exact hst
    | cons s rest ih =>
        intro st hst
        exact ih _ (scanStep_inv g kcs c hkcs hc hco st s hst)
  intro r hr
  unfold scanRegionBody at hr
  set st := bodySeq.foldl (scanStep kcs (some c))
    { regionBody := [], gangSeq := [], onlySimple := true } with hstdef
  have hstP : ∀ r ∈ st.regionBody, gangClauseOk g r :=
    hfold bodySeq _ (by intro r hr; cases hr)
  set st1 := if st.regionBody.isEmpty && st.gangSeq.isEmpty then
      { st with gangSeq := [Gimple.nop] } else st with hst1def
  have hst1P : ∀ r ∈ st1.regionBody, gangClauseOk g r := by
    rw [hst1def]
    split
    · exact hstP
    · exact hstP
  by_cases hgs : !st1.gangSeq.isEmpty
  · rw [if_pos hgs] at hr
    rcases List.mem_append.mp hr with hr1 | hr1
    · exact hst1P r hr1
    · rw [List.mem_singleton] at hr1
      subst hr1
      exact make_gang_single_region_clauses g _ _ hkcs
  · rw [if_neg hgs] at hr
    exact hst1P r hr

theorem childRegionsSeq_of_targets (rb : List Gimple)
    (h : ∀ r ∈ rb, ∃ kk cl b, r = Gimple.ompTarget kk cl b
      ∧ (kk = TargetKind.gangSingle ∨ kk = TargetKind.parallelized)) :
    childRegionsSeq rb = rb := by
  induction rb with
  | nil => rfl
  | cons r rest ih =>
      obtain ⟨kk, cl, b, hr, hkk⟩ := h r (List.mem_cons_self _ _)
      subst hr
      rw [childRegionsSeq, childRegions]
      rw [if_pos (by rcases hkk with h | h <;> simp [h])]
      rw [ih (fun r hr => h r (List.mem_cons_of_mem _ hr))]
      rfl

theorem childRegions_bind (vs : List VarDecl) (b : List Gimple) :
    childRegions (.bind vs b) = childRegionsSeq b := by
  rw [childRegions]

theorem childRegions_try (ev cl : List Gimple) :
    childRegions (.tryStmt ev cl) = childRegionsSeq ev := by
  rw [childRegions]

theorem childRegions_data (cl : List OClause) (b : List Gimple) :
    childRegions (.ompTarget .dataKernels cl b) = childRegionsSeq b := by
  rw [childRegions]
  rw [if_neg]
  simp

theorem childRegionsSeq_singleton (s : Gimple) :
    childRegionsSeq [s] = childRegions s := by
  rw [childRegionsSeq, childRegionsSeq]
  simp

theorem childRegions_inner_data (body : Gimple) (vars : List VarDecl)
    (cleanup : Option (List Gimple)) (inTemplate : Bool) :
    childRegions (maybe_build_inner_data_region body vars cleanup
      inTemplate) = childRegions body := by
  have hb2 : ∀ (c : Prop) (inst : Decidable c) (av : List VarDecl),
      childRegions (if c then Gimple.bind av [body] else body)
        = childRegions body := by
    intro c inst av
    split
    · rw [childRegions_bind, childRegionsSeq_singleton]
    · rfl
  unfold maybe_build_inner_data_region
  dsimp only
  split
  · rcases cleanup with _ | cl
    · rw [childRegions_bind, childRegionsSeq_singleton, childRegions_data,
        childRegionsSeq_singleton, childRegions_try, childRegionsSeq_singleton,
        hb2]
    · rw [childRegions_bind, childRegionsSeq_singleton, childRegions_try,
        childRegionsSeq_singleton, childRegions_data, childRegionsSeq_singleton,
        childRegions_try, childRegionsSeq_singleton, hb2]
  · exact hb2 _ _ _

theorem childRegionsSeq_scan_ok (g : Nat) (kcs : List OClause)
    (c : OClause) (hkcs : numGangsOperands kcs = [])
    (hc : c.code = .numGangs) (hco : c.operand = g)
    (bodySeq : List Gimple) (r : Gimple)
    (hr : r ∈ childRegionsSeq (scanRegionBody kcs (some c) bodySeq)) :
    gangClauseOk g r := by
  have hall := scanRegionBody_inv g kcs c hkcs hc hco bodySeq
  rw [childRegionsSeq_of_targets _ (fun x hx => (hall x hx).2.2)] at hr
  exact hall r hr

/-- C5: when the kernels region's clause chain carries exactly one
num_gangs clause (operand `g`), the decomposition removes it from the
clauses propagated to the child regions, and in the result every
gang-single child region carries num_gangs operand 1 (and no other
num_gangs clause) while every parallel-loop child region carries the
original operand `g` (and no other num_gangs clause). -/
theorem C5_num_gangs_routing :
    ∀ (kr : Gimple) (cs : List OClause) (inTemplate : Bool) (g : Nat)
      (r : Gimple),
      numGangsOperands cs = [g] →
      r ∈ childRegions (decompose_kernels_region_body kr cs inTemplate) →
      (targetKind r = some TargetKind.gangSingle →
        numGangsOperands (targetClauses r) = [1])
      ∧ (targetKind r = some TargetKind.parallelized →
        numGangsOperands (targetClauses r) = [g]) := by
  intro kr cs inTemplate g r hg hr
  obtain ⟨⟨c, hcut, hc, hco⟩, hrest⟩ := cutNumGangs_spec cs g hg
  simp only [decompose_kernels_region_body] at hr
  rw [hcut] at hr
  rw [childRegions_inner_data, childRegions_bind] at hr
  have hok : gangClauseOk g r := by
    refine childRegionsSeq_scan_ok g _ c ?_ hc hco _ r hr
    rw [presentFold_numGangs]
    exact hrest
  exact ⟨hok.1, hok.2.1⟩

/-- The num_gangs(4) clause of the C5 witness. -/
def c5Ng : OClause := { code := .numGangs, operand := 4, mapKind := .otherM, size := 0 }

/-- A bare annotated loop statement. -/
def c5Loop : Gimple := .ompFor [] []

/-- A kernels region `num_gangs(4)` with body `loop; other; loop`. -/
def c5Kr : Gimple :=
  .ompTarget .oaccKernels [c5Ng] [.bind [] [c5Loop, .other, c5Loop]]

/-- The gang-single child region produced for the middle statement. -/
def c5GS : Gimple := make_gang_single_region [.other] []

/-- Witness for C5: in the decomposition of `c5Kr`, the gang-single child
region carries num_gangs operand 1. -/
theorem C5_num_gangs_routing_witness :
    (numGangsOperands [c5Ng] = [4]
      ∧ c5GS ∈ childRegions (decompose_kernels_region_body c5Kr [c5Ng] false))
    ∧ ((targetKind c5GS = some TargetKind.gangSingle →
        numGangsOperands (targetClauses c5GS) = [1])
      ∧ (targetKind c5GS = some TargetKind.parallelized →
        numGangsOperands (targetClauses c5GS) = [4])) :=
  ⟨⟨by simp [numGangsOperands, c5Ng],
    by simp [decompose_kernels_region_body, flatten_stmts, cutNumGangs,
      c5Kr, c5Ng, c5Loop, c5GS, top_level_omp_for_in_stmt, scanStep,
      scanRegionBody, transform_kernels_loop_clauses, replaceTopLevelFor,
      make_gang_single_region, maybe_build_inner_data_region,
      childRegions, childRegionsSeq]⟩,
   C5_num_gangs_routing c5Kr [c5Ng] false 4 c5GS
     (by simp [numGangsOperands, c5Ng])
     (by simp [decompose_kernels_region_body, flatten_stmts, cutNumGangs,
       c5Kr, c5Ng, c5Loop, c5GS, top_level_omp_for_in_stmt, scanStep,
       scanRegionBody, transform_kernels_loop_clauses, replaceTopLevelFor,
       make_gang_single_region, maybe_build_inner_data_region,
       childRegions, childRegionsSeq])⟩
